import Mathlib

/-! # A doubly linked list with a two-pointer iterator (`list.hpp`)

Shallow embedding of `CList::Node`, `CList::List` and `CList::List::Iterator`.

* A pointer is an `Option Nat`: `none` is `NULL`, `some a` is the address `a`.
* The free store is a `Heap`: a list of cells indexed by address.  `new` returns the
  next unused address, `delete` empties a cell, and an access through `NULL`, through a
  freed address or through an address never allocated is undefined behaviour in C++;
  the model reports it as `Error.bad_access`.
* Every method takes the heap and the object it is called on and returns the outcome
  together with the heap and the object as they are when the call returns or throws,
  so that what a thrown exception leaves behind can be stated.
-/

universe u

/-- The enumeration `CList::POSITION`. -/
inductive POSITION where
  | START
  | END
  deriving DecidableEq, Repr

/-- The exceptions of `list.hpp`, and the two ways a C++ run can go wrong without one. -/
inductive Error where
  /-- Exception `CList::empty_list`. -/
  | empty_list
  /-- Exception `std::out_of_range`. -/
  | out_of_range
  /-- Exception `std::invalid_argument`. -/
  | invalid_argument
  /-- Access through a null, freed or unallocated pointer. -/
  | bad_access
  /-- A `while` loop that walks a cyclic chain for ever. -/
  | nontermination
  deriving DecidableEq, Repr

/-- The class `CList::Node<Value>`: two links and a value. -/
structure Node (V : Type u) where
  next : Option Nat
  previous : Option Nat
  value : V
  deriving DecidableEq, Repr

/-- The free store: cell `a` holds the node at address `a`, or `none` once deleted. -/
structure Heap (V : Type u) where
  cells : List (Option (Node V))
  deriving DecidableEq, Repr

namespace Heap

variable {V : Type u}

/-- The node stored at address `a`, if that address is allocated. -/
def read (h : Heap V) (a : Nat) : Option (Node V) :=
  match h.cells[a]? with
  | some (some n) => some n
  | _ => none

/-- Overwrite the cell at address `a`. -/
def write (h : Heap V) (a : Nat) (n : Node V) : Heap V :=
  ⟨h.cells.set a (some n)⟩

/-- The address handed out by the next `new`. -/
def fresh (h : Heap V) : Nat := h.cells.length

/-- Place `n` at the address `h.fresh`, as `new` does. -/
def alloc (h : Heap V) (n : Node V) : Heap V :=
  ⟨h.cells ++ [some n]⟩

/-- Empty the cell at address `a`, as `delete` does. -/
def free (h : Heap V) (a : Nat) : Heap V :=
  ⟨h.cells.set a none⟩

/-- The node a pointer refers to: `*p`. -/
def load (h : Heap V) (p : Option Nat) : Option (Node V) :=
  p.bind h.read

/-- The assignment `p->next = q`; `none` when `p` cannot be dereferenced. -/
def setNext (h : Heap V) (p q : Option Nat) : Option (Heap V) :=
  match p with
  | none => none
  | some a => (h.read a).map fun n => h.write a { n with next := q }

/-- The assignment `p->previous = q`; `none` when `p` cannot be dereferenced. -/
def setPrevious (h : Heap V) (p q : Option Nat) : Option (Heap V) :=
  match p with
  | none => none
  | some a => (h.read a).map fun n => h.write a { n with previous := q }

/-- The assignment `p->value = v`; `none` when `p` cannot be dereferenced. -/
def setValue (h : Heap V) (p : Option Nat) (v : V) : Option (Heap V) :=
  match p with
  | none => none
  | some a => (h.read a).map fun n => h.write a { n with value := v }

end Heap

/-- The data members of `CList::List<Value>`. -/
structure CList where
  first : Option Nat
  last : Option Nat
  deriving DecidableEq, Repr

/-- The data members of `CList::List<Value>::Iterator`. -/
structure Iterator where
  first : Option Nat
  previous_data : Option Nat
  data : Option Nat
  deriving DecidableEq, Repr

section Methods

variable {V : Type u}

/-! ## Iterator -/

/-- Method `Iterator::Increment()`. -/
def Iterator.Increment (h : Heap V) (it : Iterator) : Except Error Unit × Heap V × Iterator :=
  match it.data with
  | none =>
    match it.previous_data with
    | none => (.error .out_of_range, h, it)
    | some pd =>
      match h.read pd with
      | none => (.error .bad_access, h, it)
      | some n =>
        match n.next with
        | none => (.error .out_of_range, h, it)
        | some nx => (.ok (), h, { it with data := some pd, previous_data := some nx })
  | some d =>
    match h.read d with
    | none => (.error .bad_access, h, { it with previous_data := some d })
    | some n => (.ok (), h, { it with previous_data := some d, data := n.next })

/-- Method `Iterator::Decrement()`. -/
def Iterator.Decrement (h : Heap V) (it : Iterator) : Except Error Unit × Heap V × Iterator :=
  match it.data with
  | none =>
    match it.previous_data with
    | none => (.error .out_of_range, h, it)
    | some pd =>
      match h.read pd with
      | none => (.error .bad_access, h, it)
      | some n =>
        match n.previous with
        | none => (.error .out_of_range, h, it)
        | some pv => (.ok (), h, { it with data := some pd, previous_data := some pv })
  | some d =>
    match h.read d with
    | none => (.error .bad_access, h, { it with previous_data := some d })
    | some n => (.ok (), h, { it with previous_data := some d, data := n.previous })

/-- Constructor `Iterator::Iterator()`. -/
def Iterator.default : Iterator := ⟨none, none, none⟩

/-- Constructor `Iterator::Iterator(Node *cur)`. -/
def Iterator.ofNode (cur : Option Nat) : Iterator := ⟨cur, cur, cur⟩

/-- Method `Iterator::Reset()`. -/
def Iterator.Reset (h : Heap V) (it : Iterator) : Except Error Unit × Heap V × Iterator :=
  (.ok (), h, { it with previous_data := it.first, data := it.first })

/-- Operator `Iterator::operator++()`: the result is the iterator itself, after the step. -/
def Iterator.preIncrement (h : Heap V) (it : Iterator) :
    Except Error Iterator × Heap V × Iterator :=
  match it.Increment h with
  | (.ok _, h, it) => (.ok it, h, it)
  | (.error e, h, it) => (.error e, h, it)

/-- Operator `Iterator::operator++(int)`: the result is a copy taken before the step. -/
def Iterator.postIncrement (h : Heap V) (it : Iterator) :
    Except Error Iterator × Heap V × Iterator :=
  let tmp := it
  match it.Increment h with
  | (.ok _, h, it) => (.ok tmp, h, it)
  | (.error e, h, it) => (.error e, h, it)

/-- Operator `Iterator::operator--()`: the result is the iterator itself, after the step. -/
def Iterator.preDecrement (h : Heap V) (it : Iterator) :
    Except Error Iterator × Heap V × Iterator :=
  match it.Decrement h with
  | (.ok _, h, it) => (.ok it, h, it)
  | (.error e, h, it) => (.error e, h, it)

/-- Operator `Iterator::operator--(int)`: the result is a copy taken before the step. -/
def Iterator.postDecrement (h : Heap V) (it : Iterator) :
    Except Error Iterator × Heap V × Iterator :=
  let tmp := it
  match it.Decrement h with
  | (.ok _, h, it) => (.ok tmp, h, it)
  | (.error e, h, it) => (.error e, h, it)

/-- Operator `Iterator::operator*()`. -/
def Iterator.deref (h : Heap V) (it : Iterator) : Except Error V × Heap V × Iterator :=
  match it.data with
  | none => (.error .invalid_argument, h, it)
  | some d =>
    match h.read d with
    | none => (.error .bad_access, h, it)
    | some n => (.ok n.value, h, it)

/-- Operator `Iterator::operator+(unsigned long long i)`: `tmp` is a reference to `*this`,
so every step is made on the iterator itself; the counter only runs down to zero. -/
def Iterator.plus (h : Heap V) (it : Iterator) :
    Nat → Except Error Iterator × Heap V × Iterator
  | 0 => (.ok it, h, it)
  | i + 1 =>
    match it.Increment h with
    | (.ok _, h, it) => Iterator.plus h it i
    | (.error e, h, it) => (.error e, h, it)

/-- Operator `Iterator::operator-(unsigned long long i)`: as `operator+`, stepping backward. -/
def Iterator.minus (h : Heap V) (it : Iterator) :
    Nat → Except Error Iterator × Heap V × Iterator
  | 0 => (.ok it, h, it)
  | i + 1 =>
    match it.Decrement h with
    | (.ok _, h, it) => Iterator.minus h it i
    | (.error e, h, it) => (.error e, h, it)

/-- Operator `Iterator::operator*=(Value value)`. -/
def Iterator.assign (h : Heap V) (it : Iterator) (value : V) :
    Except Error Unit × Heap V × Iterator :=
  match it.data with
  | none => (.error .invalid_argument, h, it)
  | some d =>
    match h.setValue (some d) value with
    | none => (.error .bad_access, h, it)
    | some h => (.ok (), h, it)

/-- Operator `Iterator::operator==`. -/
def Iterator.eq (it ref : Iterator) : Bool := it.data == ref.data

/-- Operator `Iterator::operator!=`. -/
def Iterator.ne (it ref : Iterator) : Bool := it.data != ref.data

/-! ## List -/

/-- Constructor `List::List()`. -/
def CList.empty : CList := ⟨none, none⟩

/-- Method `List::Insert(Value value, POSITION pos = END)`.  `Node()` sets both links to
`NULL` and the value is assigned on the next line, so the node is allocated with it. -/
def CList.Insert (h : Heap V) (l : CList) (value : V) (pos : POSITION := POSITION.END) :
    Except Error Unit × Heap V × CList :=
  let new_elem := h.fresh
  let h := h.alloc ⟨none, none, value⟩
  match l.first with
  | none => (.ok (), h, { l with first := some new_elem, last := some new_elem })
  | some _ =>
    if pos = POSITION.START then
      match (h.setNext (some new_elem) l.first).bind
          fun h => h.setPrevious l.first (some new_elem) with
      | none => (.error .bad_access, h, l)
      | some h => (.ok (), h, { l with first := some new_elem })
    else
      match (h.setPrevious (some new_elem) l.last).bind
          fun h => h.setNext l.last (some new_elem) with
      | none => (.error .bad_access, h, l)
      | some h => (.ok (), h, { l with last := some new_elem })

/-- Method `List::Append(Value value)`. -/
def CList.Append (h : Heap V) (l : CList) (value : V) : Except Error Unit × Heap V × CList :=
  CList.Insert h l value

/-- Method `List::Prepend(Value value)`. -/
def CList.Prepend (h : Heap V) (l : CList) (value : V) : Except Error Unit × Heap V × CList :=
  CList.Insert h l value POSITION.START

/-- Method `List::Pop(POSITION pos = END)`. -/
def CList.Pop (h : Heap V) (l : CList) (pos : POSITION := POSITION.END) :
    Except Error V × Heap V × CList :=
  match l.first with
  | none => (.error .empty_list, h, l)
  | some first =>
    if pos = POSITION.START then
      match h.read first with
      | none => (.error .bad_access, h, l)
      | some popped =>
        match popped.next with
        | none => (.ok popped.value, h.free first, { l with first := none, last := none })
        | some nf =>
          match h.setPrevious (some nf) none with
          | none => (.error .bad_access, h, { l with first := some nf })
          | some h => (.ok popped.value, h.free first, { l with first := some nf })
    else
      match l.last with
      | none => (.error .bad_access, h, l)
      | some last =>
        match h.read last with
        | none => (.error .bad_access, h, l)
        | some popped =>
          match popped.previous with
          | none => (.ok popped.value, h.free last, { l with first := none, last := none })
          | some nl =>
            match h.setNext (some nl) none with
            | none => (.error .bad_access, h, { l with last := some nl })
            | some h => (.ok popped.value, h.free last, { l with last := some nl })

/-- Method `List::Peek(POSITION pos = END) const`. -/
def CList.Peek (h : Heap V) (l : CList) (pos : POSITION := POSITION.END) :
    Except Error V × Heap V × CList :=
  match l.first with
  | none => (.error .empty_list, h, l)
  | some _ =>
    match h.load (if pos = POSITION.START then l.first else l.last) with
    | none => (.error .bad_access, h, l)
    | some n => (.ok n.value, h, l)

/-- The `while (head)` loop of `List::Length`.  The heap has `h.cells.length` cells, so a
walk that is still on a node after `h.cells.length + 1` visits has come back to a node
it already left: the C++ loop never ends. -/
def CList.lengthLoop {N : Type} (inc : N → N) (h : Heap V) :
    Nat → Option Nat → N → Except Error N
  | _, none, count => .ok count
  | 0, some _, _ => .error .nontermination
  | fuel + 1, some a, count =>
    match h.read a with
    | none => .error .bad_access
    | some n => CList.lengthLoop inc h fuel n.next (inc count)

/-- Method `List::Length<Number>() const`: `zero` is `Number()` and `inc` is `++count`. -/
def CList.Length {N : Type} (zero : N) (inc : N → N) (h : Heap V) (l : CList) :
    Except Error N × Heap V × CList :=
  (CList.lengthLoop inc h (h.cells.length + 1) l.first zero, h, l)

/-- The `while (head)` loop of the copy constructor; `this` is the list under
construction and `head` walks the source: `head->value` is read before the `Append`
and `head->next` after it. -/
def CList.copyLoop :
    Nat → Heap V → CList → Option Nat → Except Error Unit × Heap V × CList
  | _, h, this, none => (.ok (), h, this)
  | 0, h, this, some _ => (.error .nontermination, h, this)
  | fuel + 1, h, this, some a =>
    match h.read a with
    | none => (.error .bad_access, h, this)
    | some n =>
      match CList.Append h this n.value with
      | (.ok _, h, this) =>
        match h.read a with
        | none => (.error .bad_access, h, this)
        | some n => CList.copyLoop fuel h this n.next
      | (.error e, h, this) => (.error e, h, this)

/-- Constructor `List::List(const List &list)`.  The source chain lies in the cells that
exist when the constructor starts, which bounds the walk as in `lengthLoop`. -/
def CList.copy (h : Heap V) (list : CList) : Except Error Unit × Heap V × CList :=
  CList.copyLoop (h.cells.length + 1) h ⟨none, none⟩ list.first

/-- Method `List::Begin(POSITION pos = START) const`. -/
def CList.Begin (l : CList) (pos : POSITION := POSITION.START) : Iterator :=
  Iterator.ofNode (if pos = POSITION.START then l.first else l.last)

/-- Method `List::End() const`. -/
def CList.End (_l : CList) : Iterator :=
  Iterator.ofNode none

end Methods


/-! ## The list a heap represents -/

section Vocabulary

variable {V : Type u}

/-- The nodes at the addresses `ps` form a doubly linked segment holding the values `xs`:
the first node's `previous` is `prev`, every node's `next` is the node after it and the
last node's `next` is `nxt`. -/
def Linked (h : Heap V) : Option Nat → List Nat → List V → Option Nat → Prop
  | _, [], [], _ => True
  | prev, p :: ps, x :: xs, nxt =>
    h.read p = some ⟨ps.head?.or nxt, prev, x⟩ ∧ Linked h (some p) ps xs nxt
  | _, _, _, _ => False

/-- The list object `l` over the heap `h` is the chain of the distinct nodes `ps`, from
`first` to `last`, and holds the element sequence `xs`. -/
structure IsList (h : Heap V) (l : CList) (ps : List Nat) (xs : List V) : Prop where
  nodup : ps.Nodup
  first_eq : l.first = ps.head?
  last_eq : l.last = ps.getLast?
  links : Linked h none ps xs none

instance Linked.decidable [DecidableEq V] (h : Heap V) :
    ∀ (prev : Option Nat) (ps : List Nat) (xs : List V) (nxt : Option Nat),
      Decidable (Linked h prev ps xs nxt)
  | _, [], [], _ => isTrue trivial
  | _, [], _ :: _, _ => isFalse (fun hl => by simp [Linked] at hl)
  | _, _ :: _, [], _ => isFalse (fun hl => by simp [Linked] at hl)
  | prev, p :: ps, x :: xs, nxt =>
    have := Linked.decidable h (some p) ps xs nxt
    decidable_of_iff
      (h.read p = some ⟨ps.head?.or nxt, prev, x⟩ ∧ Linked h (some p) ps xs nxt) Iff.rfl

instance IsList.decidable [DecidableEq V] (h : Heap V) (l : CList) (ps : List Nat)
    (xs : List V) : Decidable (IsList h l ps xs) :=
  decidable_of_iff
    (ps.Nodup ∧ l.first = ps.head? ∧ l.last = ps.getLast? ∧ Linked h none ps xs none)
    ⟨fun ⟨a, b, c, d⟩ => ⟨a, b, c, d⟩, fun ⟨a, b, c, d⟩ => ⟨a, b, c, d⟩⟩

/-- The structural invariant of a list object: `first` is absent iff `last` is; the
first node has no `previous` and the last node no `next`; and there is a path `ps` of
distinct nodes from `first` to `last` in which every adjacent pair `a`, `b` is linked
both ways (`a.next = b` and `b.previous = a`). -/
def WellFormed (h : Heap V) (l : CList) : Prop :=
  (l.first = none ↔ l.last = none) ∧
  (∀ f, l.first = some f → ∃ n, h.read f = some n ∧ n.previous = none) ∧
  (∀ t, l.last = some t → ∃ n, h.read t = some n ∧ n.next = none) ∧
  ∃ ps : List Nat, ps.Nodup ∧ ps.head? = l.first ∧ ps.getLast? = l.last ∧
    List.Chain' (fun a b => ∃ na nb, h.read a = some na ∧ h.read b = some nb ∧
      na.next = some b ∧ nb.previous = some a) ps

/-- A call a client makes on a list. -/
inductive Call (V : Type u) where
  | Append (value : V)
  | Prepend (value : V)
  | Pop (pos : POSITION)
  deriving DecidableEq, Repr

/-- Whether the call is an insertion. -/
def Call.isInsert : Call V → Bool
  | .Append _ => true
  | .Prepend _ => true
  | .Pop _ => false

/-- Make one call.  The outcome records the popped value, if any; when the call throws,
the client catches the exception and goes on with the list as the call left it. -/
def Call.run (h : Heap V) (l : CList) : Call V → Except Error (Option V) × Heap V × CList
  | .Append v =>
    match CList.Append h l v with
    | (r, h, l) => (r.map fun _ => none, h, l)
  | .Prepend v =>
    match CList.Prepend h l v with
    | (r, h, l) => (r.map fun _ => none, h, l)
  | .Pop pos =>
    match CList.Pop h l pos with
    | (r, h, l) => (r.map some, h, l)

/-- Make the calls one after the other; the trace pairs every call with its outcome. -/
def runCalls : Heap V → CList → List (Call V) →
    List (Call V × Except Error (Option V)) × Heap V × CList
  | h, l, [] => ([], h, l)
  | h, l, c :: cs =>
    match c.run h l with
    | (r, h1, l1) =>
      match runCalls h1 l1 cs with
      | (trace, h2, l2) => ((c, r) :: trace, h2, l2)

/-- The number of `Insert` calls (`Append` or `Prepend`) in a trace. -/
def insertCalls (trace : List (Call V × Except Error (Option V))) : Nat :=
  (trace.filter fun cr => cr.1.isInsert).length

/-- The number of `Pop` calls in a trace that returned a value. -/
def succeededPops (trace : List (Call V × Except Error (Option V))) : Nat :=
  (trace.filter fun cr => !cr.1.isInsert && cr.2.isOk).length

/-- Take the same step `n` times on an iterator, stopping at the first exception. -/
def Iterator.times (step : Heap V → Iterator → Except Error Unit × Heap V × Iterator) :
    Nat → Heap V → Iterator → Except Error Unit × Heap V × Iterator
  | 0, h, it => (.ok (), h, it)
  | n + 1, h, it =>
    match step h it with
    | (.ok _, h, it) => Iterator.times step n h it
    | (.error e, h, it) => (.error e, h, it)

/-- A heap holding one list of one node, with value `10`. -/
def oneHeap : Heap Nat := ⟨[some ⟨none, none, 10⟩]⟩

/-- The list object of `oneHeap`. -/
def oneList : CList := ⟨some 0, some 0⟩

/-- A heap holding one list of three nodes, with values `10`, `20`, `30`. -/
def threeHeap : Heap Nat :=
  ⟨[some ⟨some 1, none, 10⟩, some ⟨some 2, some 0, 20⟩, some ⟨none, some 1, 30⟩]⟩

/-- The list object of `threeHeap`. -/
def threeList : CList := ⟨some 0, some 2⟩

/-- The node just before position `i` of the chain `ps`; there is none before the
front. -/
def nodeBefore (ps : List Nat) (i : Nat) : Option Nat :=
  if i = 0 then none else ps[i - 1]?

/-- A single step a client makes with an iterator. -/
inductive Step where
  | forward
  | backward
  deriving DecidableEq, Repr

/-- Make one step: `forward` is `Increment`, `backward` is `Decrement`. -/
def Step.run (h : Heap V) (it : Iterator) : Step → Except Error Unit × Heap V × Iterator
  | .forward => it.Increment h
  | .backward => it.Decrement h

/-- Make the steps one after the other and collect their outcomes; when a step throws,
the client catches the exception and makes the next step on the iterator as it is. -/
def runSteps : Heap V → Iterator → List Step → List (Except Error Unit) × Heap V × Iterator
  | h, it, [] => ([], h, it)
  | h, it, s :: ss =>
    match s.run h it with
    | (r, h1, it1) =>
      match runSteps h1 it1 ss with
      | (rs, h2, it2) => (r :: rs, h2, it2)

/-- The integer cursor that the iterator is compared with, on a sequence of `n` elements:
a position from `-1` (before the first element) to `n` (past the last one).  A forward
step fails with `out_of_range` exactly at `n` and otherwise adds one. -/
def Cursor.forward (n : Nat) (p : Int) : Except Error Unit × Int :=
  if p = n then (.error .out_of_range, p) else (.ok (), p + 1)

/-- A backward step of the integer cursor fails with `out_of_range` exactly at `-1` and
otherwise subtracts one. -/
def Cursor.backward (p : Int) : Except Error Unit × Int :=
  if p = -1 then (.error .out_of_range, p) else (.ok (), p - 1)

/-- Dereference of the integer cursor: element `p` of `xs` when there is one, and
`invalid_argument` otherwise. -/
def Cursor.deref (xs : List V) (p : Int) : Except Error V :=
  if p < 0 then .error .invalid_argument
  else
    match xs[p.toNat]? with
    | some x => .ok x
    | none => .error .invalid_argument

/-- One step of the integer cursor. -/
def Cursor.step (n : Nat) (p : Int) : Step → Except Error Unit × Int
  | .forward => Cursor.forward n p
  | .backward => Cursor.backward p

/-- The steps made one after the other by the integer cursor, with their outcomes. -/
def Cursor.runSteps (n : Nat) : Int → List Step → List (Except Error Unit) × Int
  | p, [] => ([], p)
  | p, s :: ss =>
    match Cursor.step n p s with
    | (r, p1) =>
      match Cursor.runSteps n p1 ss with
      | (rs, p2) => (r :: rs, p2)

/-- The iterator `it` over the chain `ps` stands for the cursor position `p`: before the
first node it has no current node and remembers the first node; on position `p` its
current node is `ps[p]`; past the last node it has no current node and remembers the last
node. -/
def Simulates (ps : List Nat) (it : Iterator) (p : Int) : Prop :=
  (p = -1 ∧ it.data = none ∧ it.previous_data = ps[0]?) ∨
  (0 ≤ p ∧ p < ps.length ∧ it.data = ps[p.toNat]?) ∨
  (p = ps.length ∧ it.data = none ∧ it.previous_data = ps[ps.length - 1]?)

end Vocabulary

/-! ## The free store -/

namespace Heap

variable {V : Type u}

theorem read_lt {h : Heap V} {a : Nat} {n : Node V} (hr : h.read a = some n) :
    a < h.cells.length := by
  unfold read at hr
  by_contra hlt
  rw [List.getElem?_eq_none (by omega)] at hr
  simp at hr

theorem read_fresh (h : Heap V) : h.read h.fresh = none := by
  simp [read, fresh]

theorem read_write (h : Heap V) (a b : Nat) (n : Node V) :
    (h.write a n).read b = if b = a ∧ a < h.cells.length then some n else h.read b := by
  unfold read write
  simp only [List.getElem?_set]
  by_cases hba : a = b
  · subst hba
    by_cases hlt : a < h.cells.length
    · simp [hlt]
    · simp [hlt, List.getElem?_eq_none (Nat.le_of_not_lt hlt)]
  · have : ¬ b = a := fun e => hba e.symm
    simp [hba, this]

theorem read_free (h : Heap V) (a b : Nat) :
    (h.free a).read b = if b = a then none else h.read b := by
  unfold read free
  simp only [List.getElem?_set]
  by_cases hba : a = b
  · subst hba
    by_cases hlt : a < h.cells.length <;> simp [hlt]
  · have : ¬ b = a := fun e => hba e.symm
    simp [hba, this]

theorem read_alloc (h : Heap V) (n : Node V) (b : Nat) :
    (h.alloc n).read b = if b = h.fresh then some n else h.read b := by
  unfold read alloc fresh
  rcases Nat.lt_trichotomy b h.cells.length with hlt | heq | hgt
  · simp [List.getElem?_append_left hlt, Nat.ne_of_lt hlt]
  · subst heq
    simp
  · have h1 : b ≠ h.cells.length := by omega
    have h2 : (h.cells ++ [some n])[b]? = none :=
      List.getElem?_eq_none (by simp; omega)
    simp [h1, h2, List.getElem?_eq_none (Nat.le_of_lt hgt)]

@[simp] theorem fresh_write (h : Heap V) (a : Nat) (n : Node V) :
    (h.write a n).fresh = h.fresh := by
  simp [fresh, write]

@[simp] theorem fresh_free (h : Heap V) (a : Nat) : (h.free a).fresh = h.fresh := by
  simp [fresh, free]

@[simp] theorem fresh_alloc (h : Heap V) (n : Node V) : (h.alloc n).fresh = h.fresh + 1 := by
  simp [fresh, alloc]

end Heap

/-! ## The list a heap represents -/

section Representation

variable {V : Type u}

theorem Linked.length_eq {h : Heap V} :
    ∀ {prev : Option Nat} {ps : List Nat} {xs : List V} {nxt : Option Nat},
      Linked h prev ps xs nxt → ps.length = xs.length
  | _, [], [], _, _ => rfl
  | _, [], _ :: _, _, hl => by simp [Linked] at hl
  | _, _ :: _, [], _, hl => by simp [Linked] at hl
  | _, p :: ps, x :: xs, _, hl => by
    have := Linked.length_eq hl.2
    simp [this]

theorem Linked.frame {h k : Heap V} :
    ∀ {prev : Option Nat} {ps : List Nat} {xs : List V} {nxt : Option Nat},
      (∀ p ∈ ps, k.read p = h.read p) → Linked h prev ps xs nxt → Linked k prev ps xs nxt
  | _, [], [], _, _, _ => trivial
  | _, [], _ :: _, _, _, hl => by simp [Linked] at hl
  | _, _ :: _, [], _, _, hl => by simp [Linked] at hl
  | _, p :: ps, x :: xs, _, hk, hl => by
    refine ⟨?_, Linked.frame (fun q hq => hk q (List.mem_cons_of_mem _ hq)) hl.2⟩
    rw [hk p (List.mem_cons_self _ _)]
    exact hl.1

theorem Linked.live {h : Heap V} :
    ∀ {prev : Option Nat} {ps : List Nat} {xs : List V} {nxt : Option Nat},
      Linked h prev ps xs nxt → ∀ p ∈ ps, ∃ n, h.read p = some n
  | _, [], [], _, _, p, hp => by simp at hp
  | _, [], _ :: _, _, hl, _, _ => by simp [Linked] at hl
  | _, _ :: _, [], _, hl, _, _ => by simp [Linked] at hl
  | _, q :: ps, x :: xs, _, hl, p, hp => by
    rcases List.mem_cons.1 hp with rfl | hp
    · exact ⟨_, hl.1⟩
    · exact Linked.live hl.2 p hp

theorem getLast?_cons_or (p : Nat) (ps : List Nat) (prev : Option Nat) :
    (p :: ps).getLast?.or prev = ps.getLast?.or (some p) := by
  induction ps using List.reverseRecOn with
  | nil => simp
  | append_singleton ps t _ =>
    rw [← List.cons_append, List.getLast?_concat, List.getLast?_concat]
    simp

theorem Linked.append {h : Heap V} :
    ∀ {prev : Option Nat} {ps : List Nat} {xs : List V} {qs : List Nat} {ys : List V}
      {nxt : Option Nat}, ps.length = xs.length →
      (Linked h prev (ps ++ qs) (xs ++ ys) nxt ↔
        Linked h prev ps xs (qs.head?.or nxt) ∧ Linked h (ps.getLast?.or prev) qs ys nxt)
  | _, [], [], _, _, _, _ => by simp [Linked]
  | _, [], _ :: _, _, _, _, hlen => by simp at hlen
  | _, _ :: _, [], _, _, _, hlen => by simp at hlen
  | prev, p :: ps, x :: xs, qs, ys, nxt, hlen => by
    have hlen2 : ps.length = xs.length := by simpa using hlen
    have ih := @Linked.append h (some p) ps xs qs ys nxt hlen2
    have hhead : (ps ++ qs).head?.or nxt = ps.head?.or (qs.head?.or nxt) := by
      rw [List.head?_append, Option.or_assoc]
    show (h.read p = some ⟨(ps ++ qs).head?.or nxt, prev, x⟩ ∧
        Linked h (some p) (ps ++ qs) (xs ++ ys) nxt) ↔
      (h.read p = some ⟨ps.head?.or (qs.head?.or nxt), prev, x⟩ ∧
        Linked h (some p) ps xs (qs.head?.or nxt)) ∧
        Linked h ((p :: ps).getLast?.or prev) qs ys nxt
    rw [ih, hhead, getLast?_cons_or, and_assoc]

theorem Linked.snoc {h : Heap V} {prev : Option Nat} {ps : List Nat} {xs : List V}
    {t : Nat} {x : V} {nxt : Option Nat} (hp : Linked h prev ps xs (some t))
    (ht : h.read t = some ⟨nxt, ps.getLast?.or prev, x⟩) :
    Linked h prev (ps ++ [t]) (xs ++ [x]) nxt := by
  rw [Linked.append hp.length_eq]
  exact ⟨hp, by simpa [Linked] using ht⟩

theorem Linked.snoc_inv {h : Heap V} {prev : Option Nat} {ps : List Nat} {xs : List V}
    {t : Nat} {nxt : Option Nat} (hl : Linked h prev (ps ++ [t]) xs nxt) :
    ∃ xs1 x, xs = xs1 ++ [x] ∧ Linked h prev ps xs1 (some t) ∧
      h.read t = some ⟨nxt, ps.getLast?.or prev, x⟩ := by
  have hlen := hl.length_eq
  rcases List.eq_nil_or_concat xs with rfl | ⟨xs1, x, rfl⟩
  · simp at hlen
  · rw [List.concat_eq_append] at hl hlen
    have hlen1 : ps.length = xs1.length := by simpa using hlen
    rw [Linked.append hlen1] at hl
    exact ⟨xs1, x, List.concat_eq_append .., by simpa using hl.1, by simpa [Linked] using hl.2⟩

theorem IsList.lt_fresh {h : Heap V} {l : CList} {ps : List Nat} {xs : List V}
    (hl : IsList h l ps xs) {p : Nat} (hp : p ∈ ps) : p < h.fresh := by
  obtain ⟨n, hn⟩ := hl.links.live p hp
  exact Heap.read_lt hn

theorem IsList.fresh_not_mem {h : Heap V} {l : CList} {ps : List Nat} {xs : List V}
    (hl : IsList h l ps xs) : h.fresh ∉ ps :=
  fun hp => Nat.lt_irrefl _ (hl.lt_fresh hp)

theorem IsList.lengths_agree {h : Heap V} {l : CList} {ps : List Nat} {xs : List V}
    (hl : IsList h l ps xs) : ps.length = xs.length :=
  hl.links.length_eq

theorem Heap.read_write_live {h : Heap V} {a : Nat} {n : Node V} (hr : h.read a = some n)
    (m : Node V) (b : Nat) : (h.write a m).read b = if b = a then some m else h.read b := by
  rw [Heap.read_write]
  simp [Heap.read_lt hr]

end Representation

/-! ## Insert -/

section InsertLemmas

variable {V : Type u}

theorem insert_empty_run {h : Heap V} {l : CList} (v : V) (pos : POSITION)
    (hl : IsList h l [] ([] : List V)) :
    ∃ h1 l1, CList.Insert h l v pos = (.ok (), h1, l1) ∧
      IsList h1 l1 [h.fresh] [v] ∧ h1.fresh = h.fresh + 1 ∧
      ∀ a, a ≠ h.fresh → h1.read a = h.read a := by
  have hf : l.first = none := hl.first_eq
  refine ⟨h.alloc ⟨none, none, v⟩, ⟨some h.fresh, some h.fresh⟩, ?_, ?_, by simp, ?_⟩
  · simp [CList.Insert, hf]
  · refine ⟨by simp, rfl, rfl, ?_⟩
    simp [Linked, Heap.read_alloc]
  · intro a ha
    simp [Heap.read_alloc, ha]

theorem insert_start_run {h : Heap V} {l : CList} {ps : List Nat} {xs : List V} (v : V)
    (hl : IsList h l ps xs) :
    ∃ h1 l1, CList.Insert h l v POSITION.START = (.ok (), h1, l1) ∧
      IsList h1 l1 (h.fresh :: ps) (v :: xs) ∧ h1.fresh = h.fresh + 1 ∧
      ∀ a, a ∉ ps → a ≠ h.fresh → h1.read a = h.read a := by
  cases ps with
  | nil =>
    have hx : xs = [] := by
      have := hl.lengths_agree
      exact List.length_eq_zero.1 this.symm
    subst hx
    obtain ⟨h1, l1, hrun, hlist, hfr, hframe⟩ := insert_empty_run v POSITION.START hl
    exact ⟨h1, l1, hrun, hlist, hfr, fun a _ ha => hframe a ha⟩
  | cons f ps1 =>
    cases xs with
    | nil => exact absurd hl.lengths_agree (by simp)
    | cons x xs1 =>
      have hf : l.first = some f := hl.first_eq
      obtain ⟨hrf, hrest⟩ := hl.links
      have hflt : f < h.fresh := hl.lt_fresh (List.mem_cons_self _ _)
      have hfne : f ≠ h.fresh := Nat.ne_of_lt hflt
      have hnd := List.nodup_cons.1 hl.nodup
      let h0 := h.alloc ⟨none, none, v⟩
      have hr0 : h0.read h.fresh = some ⟨none, none, v⟩ := by simp [h0, Heap.read_alloc]
      let h1 := h0.write h.fresh ⟨some f, none, v⟩
      have hr1 : ∀ b, h1.read b = if b = h.fresh then some ⟨some f, none, v⟩ else h.read b := by
        intro b
        simp only [h1, Heap.read_write_live hr0, h0, Heap.read_alloc]
        split <;> rfl
      have hr1f : h1.read f = some ⟨ps1.head?.or none, none, x⟩ := by
        rw [hr1, if_neg hfne, hrf]
      let h2 := h1.write f ⟨ps1.head?.or none, some h.fresh, x⟩
      have hr2 : ∀ b, h2.read b =
          if b = f then some ⟨ps1.head?.or none, some h.fresh, x⟩
          else if b = h.fresh then some ⟨some f, none, v⟩ else h.read b := by
        intro b
        simp only [h2, Heap.read_write_live hr1f, hr1]
      refine ⟨h2, { l with first := some h.fresh }, ?_, ?_, ?_, ?_⟩
      · simp only [CList.Insert, hf, if_true, Heap.setNext, Heap.setPrevious]
        rw [show (h.alloc ⟨none, none, v⟩).read h.fresh = some ⟨none, none, v⟩ from hr0]
        simp only [Option.map_some', Option.some_bind]
        rw [show ((h.alloc ⟨none, none, v⟩).write h.fresh ⟨some f, none, v⟩).read f
          = some ⟨ps1.head?.or none, none, x⟩ from hr1f]
        rfl
      · refine ⟨?_, rfl, ?_, ?_⟩
        · exact List.nodup_cons.2 ⟨hl.fresh_not_mem, hl.nodup⟩
        · show l.last = _
          rw [List.getLast?_cons_cons]
          exact hl.last_eq
        · refine ⟨?_, ?_, ?_⟩
          · rw [hr2, if_neg (Ne.symm hfne), if_pos rfl]
            rfl
          · rw [hr2, if_pos rfl]
          · refine Linked.frame (fun p hp => ?_) hrest
            have hpf : p ≠ f := fun e => hnd.1 (e ▸ hp)
            have hpn : p ≠ h.fresh :=
              Nat.ne_of_lt (hl.lt_fresh (List.mem_cons_of_mem _ hp))
            rw [hr2, if_neg hpf, if_neg hpn]
      · simp [h2, h1, h0]
      · intro a ha hane
        have haf : a ≠ f := fun e => ha (e ▸ List.mem_cons_self _ _)
        rw [hr2, if_neg haf, if_neg hane]

theorem insert_end_run {h : Heap V} {l : CList} {ps : List Nat} {xs : List V} (v : V)
    (hl : IsList h l ps xs) :
    ∃ h1 l1, CList.Insert h l v POSITION.END = (.ok (), h1, l1) ∧
      IsList h1 l1 (ps ++ [h.fresh]) (xs ++ [v]) ∧ h1.fresh = h.fresh + 1 ∧
      ∀ a, a ∉ ps → a ≠ h.fresh → h1.read a = h.read a := by
  rcases List.eq_nil_or_concat ps with rfl | ⟨ps1, t, rfl⟩
  · have hx : xs = [] := List.length_eq_zero.1 hl.lengths_agree.symm
    subst hx
    obtain ⟨h1, l1, hrun, hlist, hfr, hframe⟩ := insert_empty_run v POSITION.END hl
    exact ⟨h1, l1, hrun, hlist, hfr, fun a _ ha => hframe a ha⟩
  · rw [List.concat_eq_append] at hl ⊢
    obtain ⟨xs1, x, rfl, hrest, hrt⟩ := hl.links.snoc_inv
    have hlast : l.last = some t := by rw [hl.last_eq, List.getLast?_concat]
    obtain ⟨f, hf⟩ : ∃ f, l.first = some f := by
      rw [hl.first_eq]
      cases ps1 <;> simp
    have htlt : t < h.fresh := hl.lt_fresh (by simp)
    have htne : t ≠ h.fresh := Nat.ne_of_lt htlt
    have hnd := List.nodup_append.1 hl.nodup
    have htn : t ∉ ps1 := fun ht => hnd.2.2 ht (List.mem_singleton_self t)
    let h0 := h.alloc ⟨none, none, v⟩
    have hr0 : h0.read h.fresh = some ⟨none, none, v⟩ := by simp [h0, Heap.read_alloc]
    let h1 := h0.write h.fresh ⟨none, some t, v⟩
    have hr1 : ∀ b, h1.read b = if b = h.fresh then some ⟨none, some t, v⟩ else h.read b := by
      intro b
      simp only [h1, Heap.read_write_live hr0, h0, Heap.read_alloc]
      split <;> rfl
    have hr1t : h1.read t = some ⟨none, ps1.getLast?.or none, x⟩ := by
      rw [hr1, if_neg htne, hrt]
    let h2 := h1.write t ⟨some h.fresh, ps1.getLast?.or none, x⟩
    have hr2 : ∀ b, h2.read b =
        if b = t then some ⟨some h.fresh, ps1.getLast?.or none, x⟩
        else if b = h.fresh then some ⟨none, some t, v⟩ else h.read b := by
      intro b
      simp only [h2, Heap.read_write_live hr1t, hr1]
    refine ⟨h2, { l with last := some h.fresh }, ?_, ?_, ?_, ?_⟩
    · simp only [CList.Insert, hf, hlast, Heap.setNext, Heap.setPrevious]
      rw [if_neg (by decide)]
      rw [show (h.alloc ⟨none, none, v⟩).read h.fresh = some ⟨none, none, v⟩ from hr0]
      simp only [Option.map_some', Option.some_bind]
      rw [show ((h.alloc ⟨none, none, v⟩).write h.fresh ⟨none, some t, v⟩).read t
        = some ⟨none, ps1.getLast?.or none, x⟩ from hr1t]
      rfl
    · refine ⟨?_, ?_, ?_, ?_⟩
      · refine List.nodup_append.2 ⟨hl.nodup, List.nodup_singleton _, ?_⟩
        intro a ha hb
        rw [List.mem_singleton.1 hb] at ha
        exact hl.fresh_not_mem ha
      · show l.first = _
        rw [hl.first_eq]
        cases ps1 <;> simp
      · show some h.fresh = _
        rw [List.getLast?_concat]
      · refine Linked.snoc (Linked.snoc (Linked.frame (fun p hp => ?_) hrest) ?_) ?_
        · have hpt : p ≠ t := fun e => htn (e ▸ hp)
          have hpn : p ≠ h.fresh := Nat.ne_of_lt (hl.lt_fresh (by simp [hp]))
          rw [hr2, if_neg hpt, if_neg hpn]
        · rw [hr2, if_pos rfl]
        · rw [hr2, if_neg (Ne.symm htne), if_pos rfl, List.getLast?_concat]
          rfl
    · simp [h2, h1, h0]
    · intro a ha hane
      have hat : a ≠ t := fun e => ha (by simp [e])
      rw [hr2, if_neg hat, if_neg hane]

end InsertLemmas

/-! ## Pop and Peek -/

section PopLemmas

variable {V : Type u}

theorem pop_start_run {h : Heap V} {l : CList} {f : Nat} {ps : List Nat} {x : V}
    {xs : List V} (hl : IsList h l (f :: ps) (x :: xs)) :
    ∃ h1 l1, CList.Pop h l POSITION.START = (.ok x, h1, l1) ∧
      IsList h1 l1 ps xs ∧ h1.fresh = h.fresh ∧
      ∀ a, a ∉ f :: ps → h1.read a = h.read a := by
  have hf : l.first = some f := hl.first_eq
  obtain ⟨hrf, hrest⟩ := hl.links
  have hnd := List.nodup_cons.1 hl.nodup
  cases ps with
  | nil =>
    have hx : xs = [] := List.length_eq_zero.1 hrest.length_eq.symm
    subst hx
    refine ⟨h.free f, ⟨none, none⟩, ?_, ⟨List.nodup_nil, rfl, rfl, trivial⟩, by simp, ?_⟩
    · simp [CList.Pop, hf, hrf]
    · intro a ha
      have haf : a ≠ f := fun e => ha (by simp [e])
      rw [Heap.read_free, if_neg haf]
  | cons g ps2 =>
    cases xs with
    | nil => exact absurd hrest.length_eq (by simp)
    | cons y xs2 =>
      obtain ⟨hrg, hrest2⟩ := hrest
      have hgf : g ≠ f := fun e => hnd.1 (by simp [e])
      have hnd2 := List.nodup_cons.1 hnd.2
      let h1 := h.write g ⟨ps2.head?.or none, none, y⟩
      have hr1 : ∀ b, (h1.free f).read b =
          if b = f then none
          else if b = g then some ⟨ps2.head?.or none, none, y⟩ else h.read b := by
        intro b
        simp only [h1, Heap.read_free, Heap.read_write_live hrg]
      refine ⟨h1.free f, { l with first := some g }, ?_, ?_, by simp [h1], ?_⟩
      · simp only [CList.Pop, hf, if_true, hrf, Heap.setPrevious]
        simp only [List.head?_cons, Option.or_some, hrg, Option.map_some']
      · refine ⟨hnd.2, rfl, ?_, ?_, ?_⟩
        · show l.last = _
          rw [hl.last_eq, List.getLast?_cons_cons]
        · rw [hr1, if_neg hgf, if_pos rfl]
        · refine Linked.frame (fun p hp => ?_) hrest2
          have hpf : p ≠ f := fun e => hnd.1 (by simp [← e, hp])
          have hpg : p ≠ g := fun e => hnd2.1 (e ▸ hp)
          rw [hr1, if_neg hpf, if_neg hpg]
      · intro a ha
        have haf : a ≠ f := fun e => ha (by simp [e])
        have hag : a ≠ g := fun e => ha (by simp [e])
        rw [hr1, if_neg haf, if_neg hag]

theorem pop_end_run {h : Heap V} {l : CList} {t : Nat} {ps : List Nat} {x : V}
    {xs : List V} (hl : IsList h l (ps ++ [t]) (xs ++ [x])) :
    ∃ h1 l1, CList.Pop h l POSITION.END = (.ok x, h1, l1) ∧
      IsList h1 l1 ps xs ∧ h1.fresh = h.fresh ∧
      ∀ a, a ∉ ps ++ [t] → h1.read a = h.read a := by
  obtain ⟨xs0, x0, hxs, hrest, hrt⟩ := hl.links.snoc_inv
  obtain ⟨rfl, rfl⟩ : xs = xs0 ∧ x = x0 := by
    have := List.append_inj' hxs rfl
    exact ⟨this.1, by simpa using this.2⟩
  have hlast : l.last = some t := by rw [hl.last_eq, List.getLast?_concat]
  obtain ⟨f, hf⟩ : ∃ f, l.first = some f := by
    rw [hl.first_eq]
    cases ps <;> simp
  have hnd := List.nodup_append.1 hl.nodup
  have htn : t ∉ ps := fun ht => hnd.2.2 ht (List.mem_singleton_self t)
  rcases List.eq_nil_or_concat ps with rfl | ⟨ps2, s, rfl⟩
  · have hx : xs = [] := List.length_eq_zero.1 hrest.length_eq.symm
    subst hx
    refine ⟨h.free t, ⟨none, none⟩, ?_, ⟨List.nodup_nil, rfl, rfl, trivial⟩, by simp, ?_⟩
    · simp [CList.Pop, hf, hlast, hrt]
    · intro a ha
      have hat : a ≠ t := fun e => ha (by simp [e])
      rw [Heap.read_free, if_neg hat]
  · rw [List.concat_eq_append] at hrest hrt hnd htn hl ⊢
    obtain ⟨xs2, y, rfl, hrest2, hrs⟩ := hrest.snoc_inv
    have hst : s ≠ t := fun e => htn (by simp [e])
    have hnd2 := List.nodup_append.1 hnd.1
    have hsn : s ∉ ps2 := fun hs => hnd2.2.2 hs (List.mem_singleton_self s)
    let h1 := h.write s ⟨none, ps2.getLast?.or none, y⟩
    have hr1 : ∀ b, (h1.free t).read b =
        if b = t then none
        else if b = s then some ⟨none, ps2.getLast?.or none, y⟩ else h.read b := by
      intro b
      simp only [h1, Heap.read_free, Heap.read_write_live hrs]
    refine ⟨h1.free t, { l with last := some s }, ?_, ?_, by simp [h1], ?_⟩
    · simp only [CList.Pop, hf, hlast, hrt, Heap.setNext]
      rw [if_neg (by decide)]
      simp only [List.getLast?_concat, Option.or_some, hrs, Option.map_some']
    · refine ⟨hnd.1, ?_, ?_, ?_⟩
      · show l.first = _
        rw [hl.first_eq]
        cases ps2 <;> simp
      · show some s = _
        rw [List.getLast?_concat]
      · refine Linked.snoc (Linked.frame (fun p hp => ?_) hrest2) ?_
        · have hpt : p ≠ t := fun e => htn (by simp [← e, hp])
          have hps : p ≠ s := fun e => hsn (e ▸ hp)
          rw [hr1, if_neg hpt, if_neg hps]
        · rw [hr1, if_neg hst, if_pos rfl]
    · intro a ha
      have hat : a ≠ t := fun e => ha (by simp [e])
      have has : a ≠ s := fun e => ha (by simp [e])
      rw [hr1, if_neg hat, if_neg has]

theorem peek_start_run {h : Heap V} {l : CList} {f : Nat} {ps : List Nat} {x : V}
    {xs : List V} (hl : IsList h l (f :: ps) (x :: xs)) :
    CList.Peek h l POSITION.START = (.ok x, h, l) := by
  have hf : l.first = some f := hl.first_eq
  simp [CList.Peek, hf, Heap.load, hl.links.1]

theorem peek_end_run {h : Heap V} {l : CList} {t : Nat} {ps : List Nat} {x : V}
    {xs : List V} (hl : IsList h l (ps ++ [t]) (xs ++ [x])) :
    CList.Peek h l POSITION.END = (.ok x, h, l) := by
  obtain ⟨xs0, x0, hxs, _, hrt⟩ := hl.links.snoc_inv
  obtain rfl : x = x0 := by simpa using (List.append_inj' hxs rfl).2
  have hlast : l.last = some t := by rw [hl.last_eq, List.getLast?_concat]
  obtain ⟨f, hf⟩ : ∃ f, l.first = some f := by
    rw [hl.first_eq]
    cases ps <;> simp
  simp [CList.Peek, hf, hlast, Heap.load, hrt]

theorem IsList.nil_iff {h : Heap V} {l : CList} {ps : List Nat} {xs : List V}
    (hl : IsList h l ps xs) : ps = [] ↔ xs = [] := by
  have := hl.lengths_agree
  constructor
  · rintro rfl
    exact List.length_eq_zero.1 this.symm
  · rintro rfl
    exact List.length_eq_zero.1 this

theorem IsList.first_none_iff {h : Heap V} {l : CList} {ps : List Nat} {xs : List V}
    (hl : IsList h l ps xs) : l.first = none ↔ xs = [] := by
  rw [hl.first_eq, List.head?_eq_none_iff, hl.nil_iff]

theorem IsList.cons_of_ne_nil {h : Heap V} {l : CList} {ps : List Nat} {xs : List V}
    (hl : IsList h l ps xs) (hne : xs ≠ []) :
    ∃ f ps1, ps = f :: ps1 ∧ xs = xs.head hne :: xs.tail := by
  cases ps with
  | nil => exact absurd (hl.nil_iff.1 rfl) hne
  | cons f ps1 => exact ⟨f, ps1, rfl, (List.head_cons_tail xs hne).symm⟩

theorem IsList.snoc_of_ne_nil {h : Heap V} {l : CList} {ps : List Nat} {xs : List V}
    (hl : IsList h l ps xs) (hne : xs ≠ []) :
    ∃ ps1 t, ps = ps1 ++ [t] ∧ xs = xs.dropLast ++ [xs.getLast hne] := by
  rcases List.eq_nil_or_concat ps with rfl | ⟨ps1, t, rfl⟩
  · exact absurd (hl.nil_iff.1 rfl) hne
  · exact ⟨ps1, t, List.concat_eq_append .., (List.dropLast_append_getLast hne).symm⟩

end PopLemmas

/-! ## Insertion and removal at the two ends -/

section EndsClaims

variable {V : Type u}

/-- C1: on a list holding `xs`, `Insert(v, END)` and `Append(v)` return normally and leave
the list holding `xs ++ [v]`; `Insert(v, START)` and `Prepend(v)` return normally and
leave it holding `v :: xs`; on the empty list either position gives `[v]`. -/
theorem insert_sequence (h : Heap V) (l : CList) (ps : List Nat) (xs : List V) (v : V)
    (hl : IsList h l ps xs) :
    (∃ h1 l1, CList.Insert h l v POSITION.END = (.ok (), h1, l1) ∧
      CList.Append h l v = (.ok (), h1, l1) ∧
      IsList h1 l1 (ps ++ [h.fresh]) (xs ++ [v])) ∧
    (∃ h2 l2, CList.Insert h l v POSITION.START = (.ok (), h2, l2) ∧
      CList.Prepend h l v = (.ok (), h2, l2) ∧
      IsList h2 l2 (h.fresh :: ps) (v :: xs)) ∧
    (xs = [] → ∀ pos, ∃ h3 l3, CList.Insert h l v pos = (.ok (), h3, l3) ∧
      IsList h3 l3 [h.fresh] [v]) := by
  refine ⟨?_, ?_, ?_⟩
  · obtain ⟨h1, l1, hrun, hlist, _, _⟩ := insert_end_run v hl
    exact ⟨h1, l1, hrun, hrun, hlist⟩
  · obtain ⟨h2, l2, hrun, hlist, _, _⟩ := insert_start_run v hl
    exact ⟨h2, l2, hrun, hrun, hlist⟩
  · rintro rfl pos
    obtain rfl : ps = [] := hl.nil_iff.2 rfl
    obtain ⟨h3, l3, hrun, hlist, _, _⟩ := insert_empty_run v pos hl
    exact ⟨h3, l3, hrun, hlist⟩

theorem pop_both_ends (h : Heap V) (l : CList) (ps : List Nat) (xs : List V)
    (hl : IsList h l ps xs) (hne : xs ≠ []) :
    (∃ h1 l1, CList.Pop h l POSITION.END = (.ok (xs.getLast hne), h1, l1) ∧
      IsList h1 l1 ps.dropLast xs.dropLast) ∧
    (∃ h2 l2, CList.Pop h l POSITION.START = (.ok (xs.head hne), h2, l2) ∧
      IsList h2 l2 ps.tail xs.tail) := by
  constructor
  · obtain ⟨ps1, t, rfl, hxs⟩ := hl.snoc_of_ne_nil hne
    have hl1 := hl
    rw [hxs] at hl1
    obtain ⟨h1, l1, hrun, hlist, _, _⟩ := pop_end_run hl1
    exact ⟨h1, l1, hrun, by simpa using hlist⟩
  · obtain ⟨f, ps1, rfl, hxs⟩ := hl.cons_of_ne_nil hne
    have hl1 := hl
    rw [hxs] at hl1
    obtain ⟨h2, l2, hrun, hlist, _, _⟩ := pop_start_run hl1
    exact ⟨h2, l2, hrun, by simpa using hlist⟩

/-- C2: on a non-empty list holding `xs`, `Pop(END)` returns the last element and leaves
the list holding `xs` without it, and `Pop(START)` returns the first element and leaves
the tail of `xs`; when `xs` has one element, `first` and `last` both become absent. -/
theorem pop_sequence (h : Heap V) (l : CList) (ps : List Nat) (xs : List V)
    (hl : IsList h l ps xs) (hne : xs ≠ []) :
    (∃ h1 l1, CList.Pop h l POSITION.END = (.ok (xs.getLast hne), h1, l1) ∧
      IsList h1 l1 ps.dropLast xs.dropLast ∧
      (xs.length = 1 → l1.first = none ∧ l1.last = none)) ∧
    (∃ h2 l2, CList.Pop h l POSITION.START = (.ok (xs.head hne), h2, l2) ∧
      IsList h2 l2 ps.tail xs.tail ∧
      (xs.length = 1 → l2.first = none ∧ l2.last = none)) := by
  obtain ⟨⟨h1, l1, hend, hlist1⟩, ⟨h2, l2, hstart, hlist2⟩⟩ := pop_both_ends h l ps xs hl hne
  refine ⟨⟨h1, l1, hend, hlist1, fun hlen => ?_⟩, ⟨h2, l2, hstart, hlist2, fun hlen => ?_⟩⟩
  · have hd : xs.dropLast = [] := List.length_eq_zero.1 (by simp [hlen])
    have hp : ps.dropLast = [] := hlist1.nil_iff.2 hd
    rw [hp] at hlist1
    exact ⟨hlist1.first_eq, hlist1.last_eq⟩
  · have hd : xs.tail = [] := List.length_eq_zero.1 (by simp [hlen])
    have hp : ps.tail = [] := hlist2.nil_iff.2 hd
    rw [hp] at hlist2
    exact ⟨hlist2.first_eq, hlist2.last_eq⟩

/-- C3: on a list holding `xs`, `Pop(pos)` and `Peek(pos)` throw `empty_list` exactly when
`xs` is empty; the throwing call leaves heap and list as they were, and an `Append(v)`
made afterwards returns normally and leaves the list holding `[v]`. -/
theorem empty_container (h : Heap V) (l : CList) (ps : List Nat) (xs : List V)
    (hl : IsList h l ps xs) (pos : POSITION) (v : V) :
    ((CList.Pop h l pos).1 = .error .empty_list ↔ xs = []) ∧
    ((CList.Peek h l pos).1 = .error .empty_list ↔ xs = []) ∧
    (xs = [] →
      CList.Pop h l pos = (.error .empty_list, h, l) ∧
      CList.Peek h l pos = (.error .empty_list, h, l) ∧
      (∃ h1 l1, CList.Append (CList.Pop h l pos).2.1 (CList.Pop h l pos).2.2 v
          = (.ok (), h1, l1) ∧ IsList h1 l1 [h.fresh] [v]) ∧
      (∃ h1 l1, CList.Append (CList.Peek h l pos).2.1 (CList.Peek h l pos).2.2 v
          = (.ok (), h1, l1) ∧ IsList h1 l1 [h.fresh] [v])) := by
  have hpopE : xs = [] → CList.Pop h l pos = (.error .empty_list, h, l) := by
    intro hx
    have hf : l.first = none := hl.first_none_iff.2 hx
    simp [CList.Pop, hf]
  have hpeekE : xs = [] → CList.Peek h l pos = (.error .empty_list, h, l) := by
    intro hx
    have hf : l.first = none := hl.first_none_iff.2 hx
    simp [CList.Peek, hf]
  refine ⟨⟨fun herr => ?_, fun hx => by rw [hpopE hx]⟩,
    ⟨fun herr => ?_, fun hx => by rw [hpeekE hx]⟩, fun hx => ?_⟩
  · by_contra hne
    obtain ⟨⟨h1, l1, hend, _⟩, ⟨h2, l2, hstart, _⟩⟩ := pop_both_ends h l ps xs hl hne
    cases pos
    · rw [hstart] at herr
      cases herr
    · rw [hend] at herr
      cases herr
  · by_contra hne
    cases pos
    · obtain ⟨f, ps1, rfl, hxs⟩ := hl.cons_of_ne_nil hne
      have hl1 := hl
      rw [hxs] at hl1
      rw [peek_start_run hl1] at herr
      cases herr
    · obtain ⟨ps1, t, rfl, hxs⟩ := hl.snoc_of_ne_nil hne
      have hl1 := hl
      rw [hxs] at hl1
      rw [peek_end_run hl1] at herr
      cases herr
  · subst hx
    obtain rfl : ps = [] := hl.nil_iff.2 rfl
    obtain ⟨h1, l1, hrun, hlist, _, _⟩ := insert_empty_run v POSITION.END hl
    refine ⟨hpopE rfl, hpeekE rfl, ⟨h1, l1, ?_, hlist⟩, ⟨h1, l1, ?_, hlist⟩⟩
    · rw [hpopE rfl]
      exact hrun
    · rw [hpeekE rfl]
      exact hrun

/-- C5: on a non-empty list, `Peek(p)` returns a value and leaves the heap (every node's
value and links) and the list object (`first`, `last`) exactly as they were, and a
`Pop(p)` made right after it returns the same value. -/
theorem peek_frame (h : Heap V) (l : CList) (ps : List Nat) (xs : List V)
    (hl : IsList h l ps xs) (hne : xs ≠ []) (p : POSITION) :
    ∃ v, CList.Peek h l p = (.ok v, h, l) ∧
      (CList.Pop (CList.Peek h l p).2.1 (CList.Peek h l p).2.2 p).1 = .ok v := by
  obtain ⟨⟨h1, l1, hend, _⟩, ⟨h2, l2, hstart, _⟩⟩ := pop_both_ends h l ps xs hl hne
  cases p
  · obtain ⟨f, ps1, rfl, hxs⟩ := hl.cons_of_ne_nil hne
    have hl1 := hl
    rw [hxs] at hl1
    refine ⟨xs.head hne, peek_start_run hl1, ?_⟩
    rw [peek_start_run hl1]
    show (CList.Pop h l POSITION.START).1 = _
    rw [hstart]
  · obtain ⟨ps1, t, rfl, hxs⟩ := hl.snoc_of_ne_nil hne
    have hl1 := hl
    rw [hxs] at hl1
    refine ⟨xs.getLast hne, peek_end_run hl1, ?_⟩
    rw [peek_end_run hl1]
    show (CList.Pop h l POSITION.END).1 = _
    rw [hend]

end EndsClaims

/-! ## Length -/

section LengthLemmas

variable {V : Type u}

theorem lengthLoop_linked {N : Type} (inc : N → N) {h : Heap V} :
    ∀ {ps : List Nat} {prev : Option Nat} {xs : List V} (fuel : Nat) (c : N),
      Linked h prev ps xs none → ps.length ≤ fuel →
      CList.lengthLoop inc h fuel ps.head? c = .ok (inc^[ps.length] c)
  | [], _, _, fuel, c, _, _ => by
    cases fuel <;> simp [CList.lengthLoop]
  | _ :: _, _, [], _, _, hl, _ => by simp [Linked] at hl
  | p :: ps, _, x :: xs, 0, _, _, hf => by simp at hf
  | p :: ps, _, x :: xs, fuel + 1, c, hl, hf => by
    have ih := lengthLoop_linked inc fuel (inc c) hl.2 (by simpa using hf)
    simp only [List.head?_cons, CList.lengthLoop, hl.1, Option.or_none, ih,
      List.length_cons, Function.iterate_succ_apply]

theorem IsList.length_le_fresh {h : Heap V} {l : CList} {ps : List Nat} {xs : List V}
    (hl : IsList h l ps xs) : ps.length ≤ h.fresh := by
  have hsub : ps ⊆ List.range h.fresh := fun p hp => List.mem_range.2 (hl.lt_fresh hp)
  simpa using (List.subperm_of_subset hl.nodup hsub).length_le

theorem length_run {N : Type} (zero : N) (inc : N → N) {h : Heap V} {l : CList}
    {ps : List Nat} {xs : List V} (hl : IsList h l ps xs) :
    CList.Length zero inc h l = (.ok (inc^[xs.length] zero), h, l) := by
  have hle : ps.length ≤ h.cells.length + 1 := Nat.le_succ_of_le hl.length_le_fresh
  simp only [CList.Length, hl.first_eq, lengthLoop_linked inc _ zero hl.links hle,
    hl.lengths_agree]

theorem length_run_nat {h : Heap V} {l : CList} {ps : List Nat} {xs : List V}
    (hl : IsList h l ps xs) :
    CList.Length 0 Nat.succ h l = (.ok xs.length, h, l) := by
  rw [length_run 0 Nat.succ hl, Nat.succ_iterate, Nat.zero_add]

end LengthLemmas

/-! ## Sequences of calls -/

section CallLemmas

variable {V : Type u}

/-- What one call does to a list holding `xs`: the list stays a list, its length moves
by the call's count, an insertion returns normally, and every cell that is neither a
node of the list nor allocated by the call keeps its content. -/
theorem Call.run_spec {h : Heap V} {l : CList} {ps : List Nat} {xs : List V}
    (c : Call V) (hl : IsList h l ps xs) :
    ∃ ps1 xs1, IsList (c.run h l).2.1 (c.run h l).2.2 ps1 xs1 ∧
      xs1.length + (if (!c.isInsert && (c.run h l).1.isOk) = true then 1 else 0)
        = xs.length + (if c.isInsert = true then 1 else 0) ∧
      (c.isInsert = true → (c.run h l).1 = .ok none) ∧
      h.fresh ≤ (c.run h l).2.1.fresh ∧
      (∀ a ∈ ps1, a ∈ ps ∨ h.fresh ≤ a) ∧
      ∀ a, a ∉ ps → a < h.fresh → (c.run h l).2.1.read a = h.read a := by
  cases c with
  | Append v =>
    obtain ⟨h1, l1, hrun, hlist, hfr, hframe⟩ := insert_end_run v hl
    have hr : (Call.Append v).run h l = (.ok none, h1, l1) := by
      simp [Call.run, CList.Append, hrun, Except.map]
    rw [hr]
    refine ⟨_, _, hlist, by simp [Call.isInsert], fun _ => rfl, by simp [hfr], ?_, ?_⟩
    · intro a ha
      rcases List.mem_append.1 ha with ha | ha
      · exact Or.inl ha
      · exact Or.inr (by simp [List.mem_singleton.1 ha])
    · intro a ha hlt
      exact hframe a ha (Nat.ne_of_lt hlt)
  | Prepend v =>
    obtain ⟨h1, l1, hrun, hlist, hfr, hframe⟩ := insert_start_run v hl
    have hr : (Call.Prepend v).run h l = (.ok none, h1, l1) := by
      simp [Call.run, CList.Prepend, hrun, Except.map]
    rw [hr]
    refine ⟨_, _, hlist, by simp [Call.isInsert], fun _ => rfl, by simp [hfr], ?_, ?_⟩
    · intro a ha
      rcases List.mem_cons.1 ha with ha | ha
      · exact Or.inr (by simp [ha])
      · exact Or.inl ha
    · intro a ha hlt
      exact hframe a ha (Nat.ne_of_lt hlt)
  | Pop pos =>
    by_cases hne : xs = []
    · have hf : l.first = none := hl.first_none_iff.2 hne
      have hr : (Call.Pop pos).run h l = (.error .empty_list, h, l) := by
        simp [Call.run, CList.Pop, hf, Except.map]
      rw [hr]
      exact ⟨ps, xs, hl, by simp [Call.isInsert, Except.isOk, Except.toBool],
        by simp [Call.isInsert], Nat.le_refl _, fun a ha => Or.inl ha, fun _ _ _ => rfl⟩
    · cases pos with
      | START =>
        obtain ⟨f, ps1, rfl, hxs⟩ := hl.cons_of_ne_nil hne
        have hl1 := hl
        rw [hxs] at hl1
        obtain ⟨h1, l1, hrun, hlist, hfr, hframe⟩ := pop_start_run hl1
        have hr : (Call.Pop POSITION.START).run h l = (.ok (some (xs.head hne)), h1, l1) := by
          simp [Call.run, hrun, Except.map]
        rw [hr]
        refine ⟨_, _, hlist, ?_, by simp [Call.isInsert], by simp [hfr], ?_, ?_⟩
        · have hpos : 0 < xs.length := List.length_pos.2 hne
          have hlen : xs.tail.length = xs.length - 1 := List.length_tail xs
          simp only [Call.isInsert, Except.isOk, Except.toBool, Bool.not_false,
            Bool.and_self, if_true, Bool.false_eq_true, if_false]
          omega
        · exact fun a ha => Or.inl (List.mem_cons_of_mem _ ha)
        · exact fun a ha _ => hframe a ha
      | END =>
        obtain ⟨ps1, t, rfl, hxs⟩ := hl.snoc_of_ne_nil hne
        have hl1 := hl
        rw [hxs] at hl1
        obtain ⟨h1, l1, hrun, hlist, hfr, hframe⟩ := pop_end_run hl1
        have hr : (Call.Pop POSITION.END).run h l
            = (.ok (some (xs.getLast hne)), h1, l1) := by
          simp [Call.run, hrun, Except.map]
        rw [hr]
        refine ⟨_, _, hlist, ?_, by simp [Call.isInsert], by simp [hfr], ?_, ?_⟩
        · have hpos : 0 < xs.length := List.length_pos.2 hne
          have hlen : xs.dropLast.length = xs.length - 1 := List.length_dropLast xs
          simp only [Call.isInsert, Except.isOk, Except.toBool, Bool.not_false,
            Bool.and_self, if_true, Bool.false_eq_true, if_false]
          omega
        · exact fun a ha => Or.inl (List.mem_append_left _ ha)
        · exact fun a ha _ => hframe a ha

theorem insertCalls_cons (c : Call V) (r : Except Error (Option V))
    (trace : List (Call V × Except Error (Option V))) :
    insertCalls ((c, r) :: trace)
      = (if c.isInsert = true then 1 else 0) + insertCalls trace := by
  unfold insertCalls
  by_cases hc : c.isInsert = true <;> simp [List.filter_cons, hc, Nat.add_comm]

theorem succeededPops_cons (c : Call V) (r : Except Error (Option V))
    (trace : List (Call V × Except Error (Option V))) :
    succeededPops ((c, r) :: trace)
      = (if (!c.isInsert && r.isOk) = true then 1 else 0) + succeededPops trace := by
  unfold succeededPops
  by_cases hc : (!c.isInsert && r.isOk) = true
  · rw [List.filter_cons, if_pos hc, if_pos hc, List.length_cons, Nat.add_comm]
  · rw [List.filter_cons, if_neg hc, if_neg hc, Nat.zero_add]

/-- A run of calls on a list holding `xs` ends on a list whose length is that of `xs`
plus the insertions minus the pops that returned, and every insertion returned. -/
theorem runCalls_spec :
    ∀ (cs : List (Call V)) {h : Heap V} {l : CList} {ps : List Nat} {xs : List V},
      IsList h l ps xs →
      ∃ ps1 xs1, IsList (runCalls h l cs).2.1 (runCalls h l cs).2.2 ps1 xs1 ∧
        xs1.length + succeededPops (runCalls h l cs).1
          = xs.length + insertCalls (runCalls h l cs).1 ∧
        (∀ cr ∈ (runCalls h l cs).1, cr.1.isInsert = true → cr.2 = .ok none) ∧
        h.fresh ≤ (runCalls h l cs).2.1.fresh ∧
        (∀ a ∈ ps1, a ∈ ps ∨ h.fresh ≤ a) ∧
        ∀ a, a ∉ ps → a < h.fresh → (runCalls h l cs).2.1.read a = h.read a
  | [], h, l, ps, xs, hl =>
    ⟨ps, xs, hl, rfl, by simp [runCalls], Nat.le_refl _, fun _ ha => Or.inl ha,
      fun _ _ _ => rfl⟩
  | c :: cs, h, l, ps, xs, hl => by
    obtain ⟨ps1, xs1, hl1, hcount1, hins1, hfr1, hmem1, hframe1⟩ := c.run_spec hl
    obtain ⟨ps2, xs2, hl2, hcount2, hins2, hfr2, hmem2, hframe2⟩ := runCalls_spec cs hl1
    have hrun : runCalls h l (c :: cs)
        = (((c, (c.run h l).1) :: (runCalls (c.run h l).2.1 (c.run h l).2.2 cs).1),
          (runCalls (c.run h l).2.1 (c.run h l).2.2 cs).2.1,
          (runCalls (c.run h l).2.1 (c.run h l).2.2 cs).2.2) := rfl
    rw [hrun]
    refine ⟨ps2, xs2, hl2, ?_, ?_, Nat.le_trans hfr1 hfr2, ?_, ?_⟩
    · simp only [insertCalls_cons, succeededPops_cons]
      omega
    · intro cr hcr
      rcases List.mem_cons.1 hcr with rfl | hcr
      · exact hins1
      · exact hins2 cr hcr
    · intro a ha
      rcases hmem2 a ha with ha1 | hge
      · rcases hmem1 a ha1 with ha0 | hge
        · exact Or.inl ha0
        · exact Or.inr hge
      · exact Or.inr (Nat.le_trans hfr1 hge)
    · intro a ha hlt
      have hna1 : a ∉ ps1 := by
        intro hmem
        rcases hmem1 a hmem with h0 | hge
        · exact ha h0
        · omega
      rw [hframe2 a hna1 (Nat.lt_of_lt_of_le hlt hfr1), hframe1 a ha hlt]

end CallLemmas

section LengthClaim

variable {V : Type u}

theorem isList_empty (h : Heap V) : IsList h CList.empty [] ([] : List V) :=
  ⟨List.nodup_nil, rfl, rfl, trivial⟩

end LengthClaim

/-! ## Copy construction -/

section CopyLemmas

variable {V : Type u}

theorem copyLoop_linked :
    ∀ {rest : List Nat} {prev : Option Nat} {ys : List V} (fuel : Nat) {h : Heap V}
      {this : CList} {qs : List Nat} {zs : List V},
      Linked h prev rest ys none → rest.length ≤ fuel → IsList h this qs zs →
      (∀ a ∈ rest, a ∉ qs) →
      ∃ h1 cp qs1, CList.copyLoop fuel h this rest.head? = (.ok (), h1, cp) ∧
        IsList h1 cp (qs ++ qs1) (zs ++ ys) ∧ h.fresh ≤ h1.fresh ∧
        (∀ a ∈ qs1, h.fresh ≤ a) ∧
        ∀ a, a ∉ qs → a < h.fresh → h1.read a = h.read a
  | [], _, [], fuel, h, this, qs, zs, _, _, hthis, _ => by
    refine ⟨h, this, [], ?_, by simpa using hthis, Nat.le_refl _, by simp, fun _ _ _ => rfl⟩
    cases fuel <;> simp [CList.copyLoop]
  | [], _, _ :: _, _, _, _, _, _, hl, _, _, _ => by simp [Linked] at hl
  | _ :: _, _, [], _, _, _, _, _, hl, _, _, _ => by simp [Linked] at hl
  | p :: rest, _, y :: ys, 0, _, _, _, _, _, hf, _, _ => by simp at hf
  | p :: rest, _, y :: ys, fuel + 1, h, this, qs, zs, hl, hf, hthis, hdisj => by
    obtain ⟨h1, l1, hrun, hlist, hfr, hframe⟩ := insert_end_run y hthis
    have hlive : ∀ a ∈ p :: rest, a < h.fresh := fun a ha => by
      obtain ⟨n, hn⟩ := hl.live a ha
      exact Heap.read_lt hn
    have hl1 : Linked h1 (some p) rest ys none := by
      refine Linked.frame (fun a ha => ?_) hl.2
      have hmem : a ∈ p :: rest := List.mem_cons_of_mem _ ha
      exact hframe a (hdisj a hmem) (Nat.ne_of_lt (hlive a hmem))
    have hdisj1 : ∀ a ∈ rest, a ∉ qs ++ [h.fresh] := by
      intro a ha hmem
      have hmem0 : a ∈ p :: rest := List.mem_cons_of_mem _ ha
      rcases List.mem_append.1 hmem with hq | hq
      · exact hdisj a hmem0 hq
      · exact Nat.lt_irrefl _ (List.mem_singleton.1 hq ▸ hlive a hmem0)
    obtain ⟨h2, cp, qs1, hloop, hcp, hfr2, hge, hframe2⟩ :=
      copyLoop_linked fuel hl1 (by simpa using hf) hlist hdisj1
    refine ⟨h2, cp, h.fresh :: qs1, ?_, by simpa using hcp, by omega, ?_, ?_⟩
    · have hp1 : h1.read p = h.read p :=
        hframe p (hdisj p (List.mem_cons_self _ _))
          (Nat.ne_of_lt (hlive p (List.mem_cons_self _ _)))
      simp only [List.head?_cons, CList.copyLoop, hl.1, CList.Append, hrun, hp1,
        Option.or_none, hloop]
    · intro a ha
      rcases List.mem_cons.1 ha with rfl | ha
      · exact Nat.le_refl _
      · have := hge a ha
        omega
    · intro a ha hlt
      have hna : a ∉ qs ++ [h.fresh] := by
        intro hmem
        rcases List.mem_append.1 hmem with hq | hq
        · exact ha hq
        · exact Nat.lt_irrefl _ (List.mem_singleton.1 hq ▸ hlt)
      rw [hframe2 a hna (by omega), hframe a ha (Nat.ne_of_lt hlt)]

theorem copy_run {h : Heap V} {src : CList} {ps : List Nat} {xs : List V}
    (hl : IsList h src ps xs) :
    ∃ h1 cp qs, CList.copy h src = (.ok (), h1, cp) ∧ IsList h1 cp qs xs ∧
      IsList h1 src ps xs ∧ (∀ a ∈ qs, a ∉ ps) := by
  have hle : ps.length ≤ h.cells.length + 1 := Nat.le_succ_of_le hl.length_le_fresh
  obtain ⟨h1, cp, qs, hloop, hcp, _, hge, hframe⟩ :=
    copyLoop_linked (h.cells.length + 1) hl.links hle (isList_empty h) (by simp)
  refine ⟨h1, cp, qs, ?_, by simpa using hcp, ?_, ?_⟩
  · rw [CList.copy, hl.first_eq]
    exact hloop
  · exact ⟨hl.nodup, hl.first_eq, hl.last_eq,
      Linked.frame (fun a ha => hframe a (by simp) (hl.lt_fresh ha)) hl.links⟩
  · intro a ha hmem
    have h1 := hge a ha
    have h2 := hl.lt_fresh hmem
    omega

end CopyLemmas

section CopyClaim

variable {V : Type u}

/-- C6: copy construction from a list holding `xs` returns normally with a list holding
exactly `xs`, built from nodes `qs` none of which is a node of the source, and the source
still holds `xs`.  Whatever calls (`Append`, `Prepend`, `Pop`) are then made on the source,
the copy keeps the same nodes and the same element sequence, and its `Length()` is still
the length of `xs`. -/
theorem copy_independent (h : Heap V) (src : CList) (ps : List Nat) (xs : List V)
    (hl : IsList h src ps xs) :
    ∃ h1 cp qs, CList.copy h src = (.ok (), h1, cp) ∧ IsList h1 cp qs xs ∧
      IsList h1 src ps xs ∧ (∀ a ∈ qs, a ∉ ps) ∧
      ∀ cs : List (Call V),
        IsList (runCalls h1 src cs).2.1 cp qs xs ∧
        CList.Length 0 Nat.succ (runCalls h1 src cs).2.1 cp
          = (.ok xs.length, (runCalls h1 src cs).2.1, cp) := by
  obtain ⟨h1, cp, qs, hrun, hcp, hsrc, hdisj⟩ := copy_run hl
  refine ⟨h1, cp, qs, hrun, hcp, hsrc, hdisj, fun cs => ?_⟩
  obtain ⟨_, _, _, _, _, _, _, hframe⟩ := runCalls_spec cs hsrc
  have hcp2 : IsList (runCalls h1 src cs).2.1 cp qs xs :=
    ⟨hcp.nodup, hcp.first_eq, hcp.last_eq,
      Linked.frame (fun a ha => hframe a (hdisj a ha) (hcp.lt_fresh ha)) hcp.links⟩
  exact ⟨hcp2, length_run_nat hcp2⟩

end CopyClaim

/-! ## The structural invariant -/

section InvariantLemmas

variable {V : Type u}

theorem Linked.chain {h : Heap V} :
    ∀ {ps : List Nat} {prev : Option Nat} {xs : List V} {nxt : Option Nat},
      Linked h prev ps xs nxt →
      List.Chain' (fun a b => ∃ na nb, h.read a = some na ∧ h.read b = some nb ∧
        na.next = some b ∧ nb.previous = some a) ps
  | [], _, _, _, _ => List.chain'_nil
  | [_], _, _, _, _ => List.chain'_singleton _
  | _ :: _ :: _, _, [], _, hl => by simp [Linked] at hl
  | _ :: _ :: _, _, [_], _, hl => by simp [Linked] at hl
  | p :: q :: ps, _, x :: y :: xs, _, hl => by
    refine List.chain'_cons.2 ⟨⟨_, _, hl.1, hl.2.1, rfl, rfl⟩, Linked.chain hl.2⟩

theorem IsList.wellFormed {h : Heap V} {l : CList} {ps : List Nat} {xs : List V}
    (hl : IsList h l ps xs) : WellFormed h l := by
  refine ⟨?_, ?_, ?_, ps, hl.nodup, hl.first_eq.symm, hl.last_eq.symm, hl.links.chain⟩
  · rw [hl.first_eq, hl.last_eq, List.head?_eq_none_iff, List.getLast?_eq_none_iff]
  · intro f hf
    cases ps with
    | nil => rw [hl.first_eq] at hf; cases hf
    | cons p ps1 =>
      cases xs with
      | nil => exact absurd hl.lengths_agree (by simp)
      | cons x xs1 =>
        obtain rfl : p = f := by
          rw [hl.first_eq] at hf
          simpa using hf
        exact ⟨_, hl.links.1, rfl⟩
  · intro t ht
    rcases List.eq_nil_or_concat ps with rfl | ⟨ps1, s, rfl⟩
    · rw [hl.last_eq] at ht; cases ht
    · rw [List.concat_eq_append] at hl
      obtain rfl : s = t := by
        rw [hl.last_eq, List.getLast?_concat] at ht
        simpa using ht
      obtain ⟨_, _, _, _, hrt⟩ := hl.links.snoc_inv
      exact ⟨_, hrt, rfl⟩

theorem linked_of_chain {h : Heap V} :
    ∀ (ps : List Nat) (prev : Option Nat),
      List.Chain' (fun a b => ∃ na nb, h.read a = some na ∧ h.read b = some nb ∧
        na.next = some b ∧ nb.previous = some a) ps →
      (∀ f, ps.head? = some f → ∃ n, h.read f = some n ∧ n.previous = prev) →
      (∀ t, ps.getLast? = some t → ∃ n, h.read t = some n ∧ n.next = none) →
      ∃ xs : List V, Linked h prev ps xs none
  | [], _, _, _, _ => ⟨[], trivial⟩
  | [p], prev, _, hfirst, hlast => by
    obtain ⟨n, hn, hprev⟩ := hfirst p rfl
    obtain ⟨m, hm, hnext⟩ := hlast p rfl
    obtain rfl : n = m := by
      rw [hn] at hm
      exact Option.some.inj hm
    refine ⟨[n.value], ?_, trivial⟩
    rw [hn]
    cases n
    simp_all
  | p :: q :: ps, prev, hchain, hfirst, hlast => by
    obtain ⟨⟨na, nb, hna, hnb, hnext, hprevb⟩, hrest⟩ := List.chain'_cons.1 hchain
    obtain ⟨n, hn, hprev⟩ := hfirst p rfl
    obtain rfl : n = na := by
      rw [hn] at hna
      exact Option.some.inj hna
    obtain ⟨xs, hxs⟩ := linked_of_chain (q :: ps) (some p) hrest
      (fun f hf => by
        obtain rfl : q = f := by simpa using hf
        exact ⟨nb, hnb, hprevb⟩)
      (fun t ht => hlast t (by rw [List.getLast?_cons_cons]; exact ht))
    refine ⟨n.value :: xs, ?_, hxs⟩
    rw [hn]
    cases n
    simp_all

theorem WellFormed.isList {h : Heap V} {l : CList} (hw : WellFormed h l) :
    ∃ ps xs, IsList h l ps xs := by
  obtain ⟨_, hfirst, hlast, ps, hnd, hhead, hgl, hchain⟩ := hw
  obtain ⟨xs, hxs⟩ := linked_of_chain ps none hchain
    (fun f hf => hfirst f (hhead ▸ hf)) (fun t ht => hlast t (hgl ▸ ht))
  exact ⟨ps, xs, hnd, hhead.symm, hgl.symm, hxs⟩

end InvariantLemmas

section InvariantClaim

variable {V : Type u}

/-- C7: the structural invariant (`first` absent iff `last` absent; the first node
without `previous`, the last without `next`; adjacent nodes of the chain linked both
ways; a path of distinct nodes from `first` to `last`) holds for the empty list, every
`Insert` at either position returns normally and keeps it, and every `Pop` at either
position that returns a value keeps it. -/
theorem invariant_preserved (h : Heap V) (l : CList) (hw : WellFormed h l) :
    WellFormed h CList.empty ∧
    (∀ (v : V) (pos : POSITION), (CList.Insert h l v pos).1 = .ok () ∧
      WellFormed (CList.Insert h l v pos).2.1 (CList.Insert h l v pos).2.2) ∧
    (∀ (pos : POSITION) (v : V), (CList.Pop h l pos).1 = .ok v →
      WellFormed (CList.Pop h l pos).2.1 (CList.Pop h l pos).2.2) := by
  obtain ⟨ps, xs, hl⟩ := hw.isList
  refine ⟨(isList_empty h).wellFormed, fun v pos => ?_, fun pos v hv => ?_⟩
  · cases pos
    · obtain ⟨h1, l1, hrun, hlist, _, _⟩ := insert_start_run v hl
      rw [hrun]
      exact ⟨rfl, hlist.wellFormed⟩
    · obtain ⟨h1, l1, hrun, hlist, _, _⟩ := insert_end_run v hl
      rw [hrun]
      exact ⟨rfl, hlist.wellFormed⟩
  · by_cases hne : xs = []
    · have hf : l.first = none := hl.first_none_iff.2 hne
      have hE : CList.Pop h l pos = (.error .empty_list, h, l) := by
        simp [CList.Pop, hf]
      rw [hE] at hv
      cases hv
    · obtain ⟨⟨h1, l1, hend, hlist1⟩, ⟨h2, l2, hstart, hlist2⟩⟩ :=
        pop_both_ends h l ps xs hl hne
      cases pos
      · rw [hstart]
        exact hlist2.wellFormed
      · rw [hend]
        exact hlist1.wellFormed

end InvariantClaim

/-! ## Walking a list with an iterator -/

section WalkLemmas

variable {V : Type u}

theorem Linked.read_getElem {h : Heap V} :
    ∀ {ps : List Nat} {prev : Option Nat} {xs : List V} {nxt : Option Nat},
      Linked h prev ps xs nxt → ∀ (i p : Nat), ps[i]? = some p →
      ∃ x, xs[i]? = some x ∧
        h.read p = some ⟨ps[i + 1]?.or nxt, if i = 0 then prev else ps[i - 1]?, x⟩
  | [], _, _, _, _, i, p, hp => by simp at hp
  | _ :: _, _, [], _, hl, _, _, _ => by simp [Linked] at hl
  | q :: ps, prev, x :: xs, nxt, hl, 0, p, hp => by
    obtain rfl : q = p := by simpa using hp
    refine ⟨x, by simp, ?_⟩
    rw [hl.1]
    simp [List.head?_eq_getElem?]
  | q :: ps, prev, x :: xs, nxt, hl, i + 1, p, hp => by
    obtain ⟨y, hy, hr⟩ := Linked.read_getElem hl.2 i p (by simpa using hp)
    refine ⟨y, by simpa using hy, ?_⟩
    rw [hr]
    cases i <;> simp

theorem IsList.read_at {h : Heap V} {l : CList} {ps : List Nat} {xs : List V}
    (hl : IsList h l ps xs) {i p : Nat} (hp : ps[i]? = some p) :
    ∃ x, xs[i]? = some x ∧ h.read p = some ⟨ps[i + 1]?, nodeBefore ps i, x⟩ := by
  obtain ⟨x, hx, hr⟩ := hl.links.read_getElem i p hp
  exact ⟨x, hx, by simpa [nodeBefore] using hr⟩

theorem nodeBefore_succ (ps : List Nat) (i : Nat) : nodeBefore ps (i + 1) = ps[i]? := by
  simp [nodeBefore]

theorem increment_on_node {h : Heap V} {l : CList} {ps : List Nat} {xs : List V}
    (hl : IsList h l ps xs) {it : Iterator} {i p : Nat} (hd : it.data = some p)
    (hp : ps[i]? = some p) :
    it.Increment h = (.ok (), h, ⟨it.first, some p, ps[i + 1]?⟩) := by
  obtain ⟨x, _, hr⟩ := hl.read_at hp
  simp [Iterator.Increment, hd, hr]

theorem decrement_on_node {h : Heap V} {l : CList} {ps : List Nat} {xs : List V}
    (hl : IsList h l ps xs) {it : Iterator} {i p : Nat} (hd : it.data = some p)
    (hp : ps[i]? = some p) :
    it.Decrement h = (.ok (), h, ⟨it.first, some p, nodeBefore ps i⟩) := by
  obtain ⟨x, _, hr⟩ := hl.read_at hp
  simp [Iterator.Decrement, hd, hr]

theorem times_increment {h : Heap V} {l : CList} {ps : List Nat} {xs : List V}
    (hl : IsList h l ps xs) :
    ∀ (k i : Nat) (it : Iterator), i + k ≤ ps.length → it.data = ps[i]? →
      Iterator.times Iterator.Increment k h it
        = (.ok (), h, ⟨it.first, if k = 0 then it.previous_data else ps[i + k - 1]?,
            ps[i + k]?⟩)
  | 0, i, it, _, hd => by
    cases it
    simp_all [Iterator.times]
  | k + 1, i, it, hle, hd => by
    have hi : i < ps.length := by omega
    have hp : ps[i]? = some ps[i] := List.getElem?_eq_getElem hi
    have hstep := increment_on_node hl (hd.trans hp) hp
    have ih := times_increment hl k (i + 1) ⟨it.first, some ps[i], ps[i + 1]?⟩
      (by omega) rfl
    simp only [Iterator.times, hstep, ih]
    by_cases hk : k = 0
    · subst hk
      simp [hp]
    · have e1 : i + 1 + k - 1 = i + (k + 1) - 1 := by omega
      have e2 : i + 1 + k = i + (k + 1) := by omega
      simp [hk, e1, e2]

theorem times_decrement {h : Heap V} {l : CList} {ps : List Nat} {xs : List V}
    (hl : IsList h l ps xs) :
    ∀ (k j : Nat) (it : Iterator), k ≤ j → j ≤ ps.length → it.data = nodeBefore ps j →
      Iterator.times Iterator.Decrement k h it
        = (.ok (), h, ⟨it.first,
            if k = 0 then it.previous_data else nodeBefore ps (j - k + 1),
            nodeBefore ps (j - k)⟩)
  | 0, j, it, _, _, hd => by
    cases it
    simp_all [Iterator.times]
  | k + 1, j, it, hkj, hjn, hd => by
    obtain ⟨i, rfl⟩ : ∃ i, j = i + 1 := ⟨j - 1, by omega⟩
    have hi : i < ps.length := by omega
    have hp : ps[i]? = some ps[i] := List.getElem?_eq_getElem hi
    rw [nodeBefore_succ] at hd
    have hstep := decrement_on_node hl (hd.trans hp) hp
    have ih := times_decrement hl k i ⟨it.first, some ps[i], nodeBefore ps i⟩
      (by omega) (by omega) rfl
    simp only [Iterator.times, hstep, ih]
    by_cases hk : k = 0
    · subst hk
      simp [nodeBefore_succ, hp]
    · have e1 : i + 1 - (k + 1) + 1 = i - k + 1 := by omega
      have e2 : i + 1 - (k + 1) = i - k := by omega
      simp [hk, e1, e2]

theorem IsList.last_eq_getElem? {h : Heap V} {l : CList} {ps : List Nat} {xs : List V}
    (hl : IsList h l ps xs) : l.last = nodeBefore ps ps.length := by
  rw [hl.last_eq, List.getLast?_eq_getElem?, nodeBefore]
  cases ps <;> simp

theorem IsList.first_eq_getElem? {h : Heap V} {l : CList} {ps : List Nat} {xs : List V}
    (hl : IsList h l ps xs) : l.first = ps[0]? := by
  rw [hl.first_eq, List.head?_eq_getElem?]

end WalkLemmas

section WalkClaims

variable {V : Type u}

/-- C8: on any list (the empty one included), with `n` the value `Length()` returns, each
of `n` forward steps from `Begin(START)` succeeds, the iterator then has no current node
(`data` absent), and one more forward step throws `out_of_range`. -/
theorem forward_walk (h : Heap V) (l : CList) (ps : List Nat) (xs : List V)
    (hl : IsList h l ps xs) :
    ∃ n, CList.Length 0 Nat.succ h l = (.ok n, h, l) ∧
      (∀ k, k ≤ n → ∃ it,
        Iterator.times Iterator.Increment k h (l.Begin POSITION.START) = (.ok (), h, it)) ∧
      ∃ it, Iterator.times Iterator.Increment n h (l.Begin POSITION.START) = (.ok (), h, it) ∧
        it.data = none ∧ it.Increment h = (.error .out_of_range, h, it) := by
  have hlen := hl.lengths_agree
  have hbegin : (l.Begin POSITION.START).data = ps[0]? := hl.first_eq_getElem?
  refine ⟨xs.length, length_run_nat hl, fun k hk => ?_, ?_⟩
  · exact ⟨_, times_increment hl k 0 _ (by omega) hbegin⟩
  · have hrun := times_increment hl xs.length 0 _ (by omega) hbegin
    have hnone : ps[xs.length]? = none := List.getElem?_eq_none (by omega)
    simp only [Nat.zero_add, hnone] at hrun
    refine ⟨_, hrun, rfl, ?_⟩
    by_cases hn : xs.length = 0
    · have hps : ps = [] := List.length_eq_zero.1 (hlen.trans hn)
      have hfirst : l.first = none := by rw [hl.first_eq, hps]; rfl
      simp [Iterator.Increment, hn, CList.Begin, Iterator.ofNode, hfirst]
    · have hi : xs.length - 1 < ps.length := by omega
      have hp : ps[xs.length - 1]? = some ps[xs.length - 1] := List.getElem?_eq_getElem hi
      obtain ⟨x, _, hr⟩ := hl.read_at hp
      have hnext : ps[xs.length - 1 + 1]? = none := List.getElem?_eq_none (by omega)
      rw [hnext] at hr
      simp [Iterator.Increment, hn, hp, hr]

/-- C9: on any list (the empty one included), with `n` the value `Length()` returns, each
of `n` backward steps from `Begin(END)` succeeds, the iterator then has no current node
(`data` absent), and one more backward step throws `out_of_range`. -/
theorem backward_walk (h : Heap V) (l : CList) (ps : List Nat) (xs : List V)
    (hl : IsList h l ps xs) :
    ∃ n, CList.Length 0 Nat.succ h l = (.ok n, h, l) ∧
      (∀ k, k ≤ n → ∃ it,
        Iterator.times Iterator.Decrement k h (l.Begin POSITION.END) = (.ok (), h, it)) ∧
      ∃ it, Iterator.times Iterator.Decrement n h (l.Begin POSITION.END) = (.ok (), h, it) ∧
        it.data = none ∧ it.Decrement h = (.error .out_of_range, h, it) := by
  have hlen := hl.lengths_agree
  have hbegin : (l.Begin POSITION.END).data = nodeBefore ps ps.length := by
    have : (l.Begin POSITION.END).data = l.last := by
      simp [CList.Begin, Iterator.ofNode]
    rw [this, hl.last_eq_getElem?]
  refine ⟨xs.length, length_run_nat hl, fun k hk => ?_, ?_⟩
  · exact ⟨_, times_decrement hl k ps.length _ (by omega) (Nat.le_refl _) hbegin⟩
  · have hrun := times_decrement hl xs.length ps.length _ (by omega) (Nat.le_refl _) hbegin
    have hzero : ps.length - xs.length = 0 := by omega
    rw [hzero] at hrun
    refine ⟨_, hrun, rfl, ?_⟩
    by_cases hn : xs.length = 0
    · have hps : ps = [] := List.length_eq_zero.1 (hlen.trans hn)
      have hlast : l.last = none := by rw [hl.last_eq, hps]; rfl
      simp [Iterator.Decrement, hn, nodeBefore, CList.Begin, Iterator.ofNode, hlast]
    · have hi : 0 < ps.length := by omega
      obtain ⟨x, _, hr⟩ := hl.read_at (List.getElem?_eq_getElem hi)
      have hp : nodeBefore ps (0 + 1) = some ps[0] := by
        rw [nodeBefore_succ]
        exact List.getElem?_eq_getElem hi
      have hb : nodeBefore ps 0 = none := rfl
      rw [hb] at hr
      simp [Iterator.Decrement, hn, hp, hb, hr]

end WalkClaims

section RecoveryClaim

variable {V : Type u}

/-- C10, as stated, fails on a list of one node: the iterator that stepped forward off
the only node cannot step backward (`out_of_range`), and the iterator that stepped
backward off it cannot step forward. -/
theorem recovery_fails_on_singleton :
    IsList oneHeap oneList [0] [10] ∧
    (oneList.Begin POSITION.START).data = oneList.last ∧
    (oneList.Begin POSITION.START).data = oneList.first ∧
    (oneList.Begin POSITION.START).Increment oneHeap
      = (.ok (), oneHeap, ⟨some 0, some 0, none⟩) ∧
    Iterator.Decrement oneHeap ⟨some 0, some 0, none⟩
      = (.error .out_of_range, oneHeap, ⟨some 0, some 0, none⟩) ∧
    (oneList.Begin POSITION.START).Decrement oneHeap
      = (.ok (), oneHeap, ⟨some 0, some 0, none⟩) ∧
    Iterator.Increment oneHeap ⟨some 0, some 0, none⟩
      = (.error .out_of_range, oneHeap, ⟨some 0, some 0, none⟩) :=
  ⟨by decide, rfl, rfl, rfl, rfl, rfl, rfl⟩

/-- C10 (amended): on a list of at least two elements, an iterator on the last node
steps forward into a state without current node, then steps backward without error and
is on the last node again, where dereference returns the last element; symmetrically an
iterator on the first node steps backward off it, then forward, and is on the first node
again, where dereference returns the first element. -/
theorem sentinel_recovery (h : Heap V) (l : CList) (ps : List Nat) (xs : List V)
    (hl : IsList h l ps xs) (hlen2 : 2 ≤ xs.length) (it : Iterator) :
    (it.data = l.last → ∃ it1 it2 v,
      it.Increment h = (.ok (), h, it1) ∧ it1.data = none ∧
      it1.Decrement h = (.ok (), h, it2) ∧ it2.data = l.last ∧
      it2.deref h = (.ok v, h, it2) ∧ xs.getLast? = some v) ∧
    (it.data = l.first → ∃ it1 it2 v,
      it.Decrement h = (.ok (), h, it1) ∧ it1.data = none ∧
      it1.Increment h = (.ok (), h, it2) ∧ it2.data = l.first ∧
      it2.deref h = (.ok v, h, it2) ∧ xs.head? = some v) := by
  have hlen := hl.lengths_agree
  constructor
  · intro hd
    have hi : ps.length - 1 < ps.length := by omega
    have hp : ps[ps.length - 1]? = some ps[ps.length - 1] := List.getElem?_eq_getElem hi
    have hlast : l.last = some ps[ps.length - 1] := by
      rw [hl.last_eq, List.getLast?_eq_getElem?, hp]
    obtain ⟨x, hx, hr⟩ := hl.read_at hp
    have hnext : ps[ps.length - 1 + 1]? = none := List.getElem?_eq_none (by omega)
    have hj : ps.length - 1 - 1 < ps.length := by omega
    have hprev : nodeBefore ps (ps.length - 1) = some ps[ps.length - 1 - 1] := by
      rw [nodeBefore, if_neg (by omega)]
      exact List.getElem?_eq_getElem hj
    rw [hnext, hprev] at hr
    refine ⟨⟨it.first, some ps[ps.length - 1], none⟩,
      ⟨it.first, some ps[ps.length - 1 - 1], some ps[ps.length - 1]⟩, x, ?_, rfl, ?_,
      hlast.symm, ?_, ?_⟩
    · rw [increment_on_node hl (hd.trans hlast) hp, hnext]
    · simp [Iterator.Decrement, hr]
    · simp [Iterator.deref, hr]
    · rw [List.getLast?_eq_getElem?, ← hlen, hx]
  · intro hd
    have hi : 0 < ps.length := by omega
    have hp : ps[0]? = some ps[0] := List.getElem?_eq_getElem hi
    have hfirst : l.first = some ps[0] := by rw [hl.first_eq_getElem?, hp]
    obtain ⟨x, hx, hr⟩ := hl.read_at hp
    have hj : 1 < ps.length := by omega
    have hnext : ps[0 + 1]? = some ps[1] := List.getElem?_eq_getElem hj
    have hprev : nodeBefore ps 0 = none := rfl
    rw [hnext, hprev] at hr
    refine ⟨⟨it.first, some ps[0], none⟩, ⟨it.first, some ps[1], some ps[0]⟩, x, ?_, rfl,
      ?_, hfirst.symm, ?_, ?_⟩
    · rw [decrement_on_node hl (hd.trans hfirst) hp, hprev]
    · simp [Iterator.Increment, hr]
    · simp [Iterator.deref, hr]
    · rw [List.head?_eq_getElem?, hx]

end RecoveryClaim

/-! ## The theorems at concrete lists -/

section Witnesses

theorem insert_sequence_witness :
    IsList threeHeap threeList [0, 1, 2] [10, 20, 30] ∧
    ((∃ h1 l1, CList.Insert threeHeap threeList 40 POSITION.END = (.ok (), h1, l1) ∧
      CList.Append threeHeap threeList 40 = (.ok (), h1, l1) ∧
      IsList h1 l1 ([0, 1, 2] ++ [threeHeap.fresh]) ([10, 20, 30] ++ [40])) ∧
    (∃ h2 l2, CList.Insert threeHeap threeList 40 POSITION.START = (.ok (), h2, l2) ∧
      CList.Prepend threeHeap threeList 40 = (.ok (), h2, l2) ∧
      IsList h2 l2 (threeHeap.fresh :: [0, 1, 2]) (40 :: [10, 20, 30])) ∧
    (([10, 20, 30] : List Nat) = [] → ∀ pos, ∃ h3 l3,
      CList.Insert threeHeap threeList 40 pos = (.ok (), h3, l3) ∧
      IsList h3 l3 [threeHeap.fresh] [40])) :=
  ⟨by decide, insert_sequence threeHeap threeList [0, 1, 2] [10, 20, 30] 40 (by decide)⟩

theorem pop_sequence_witness :
    IsList threeHeap threeList [0, 1, 2] [10, 20, 30] ∧ ([10, 20, 30] : List Nat) ≠ [] ∧
    ((∃ h1 l1, CList.Pop threeHeap threeList POSITION.END = (.ok 30, h1, l1) ∧
      IsList h1 l1 [0, 1] [10, 20] ∧
      (([10, 20, 30] : List Nat).length = 1 → l1.first = none ∧ l1.last = none)) ∧
    (∃ h2 l2, CList.Pop threeHeap threeList POSITION.START = (.ok 10, h2, l2) ∧
      IsList h2 l2 [1, 2] [20, 30] ∧
      (([10, 20, 30] : List Nat).length = 1 → l2.first = none ∧ l2.last = none))) :=
  ⟨by decide, by decide,
    pop_sequence threeHeap threeList [0, 1, 2] [10, 20, 30] (by decide) (by decide)⟩

theorem empty_container_witness :
    IsList (⟨[]⟩ : Heap Nat) CList.empty [] [] ∧
    CList.Pop (⟨[]⟩ : Heap Nat) CList.empty POSITION.END
      = (.error .empty_list, ⟨[]⟩, CList.empty) ∧
    CList.Peek (⟨[]⟩ : Heap Nat) CList.empty POSITION.END
      = (.error .empty_list, ⟨[]⟩, CList.empty) :=
  ⟨by decide,
    ((empty_container (⟨[]⟩ : Heap Nat) CList.empty [] [] (by decide) POSITION.END 1).2.2
      rfl).1,
    ((empty_container (⟨[]⟩ : Heap Nat) CList.empty [] [] (by decide) POSITION.END 1).2.2
      rfl).2.1⟩

theorem peek_frame_witness :
    IsList threeHeap threeList [0, 1, 2] [10, 20, 30] ∧ ([10, 20, 30] : List Nat) ≠ [] ∧
    ∃ v, CList.Peek threeHeap threeList POSITION.END = (.ok v, threeHeap, threeList) ∧
      (CList.Pop (CList.Peek threeHeap threeList POSITION.END).2.1
        (CList.Peek threeHeap threeList POSITION.END).2.2 POSITION.END).1 = .ok v :=
  ⟨by decide, by decide,
    peek_frame threeHeap threeList [0, 1, 2] [10, 20, 30] (by decide) (by decide)
      POSITION.END⟩

theorem copy_independent_witness :
    IsList threeHeap threeList [0, 1, 2] [10, 20, 30] ∧
    ∃ h1 cp qs, CList.copy threeHeap threeList = (.ok (), h1, cp) ∧
      IsList h1 cp qs [10, 20, 30] ∧ IsList h1 threeList [0, 1, 2] [10, 20, 30] ∧
      (∀ a ∈ qs, a ∉ [0, 1, 2]) ∧
      ∀ cs : List (Call Nat),
        IsList (runCalls h1 threeList cs).2.1 cp qs [10, 20, 30] ∧
        CList.Length 0 Nat.succ (runCalls h1 threeList cs).2.1 cp
          = (.ok ([10, 20, 30] : List Nat).length, (runCalls h1 threeList cs).2.1, cp) :=
  ⟨by decide, copy_independent threeHeap threeList [0, 1, 2] [10, 20, 30] (by decide)⟩

theorem invariant_preserved_witness :
    WellFormed threeHeap threeList ∧
    (WellFormed threeHeap CList.empty ∧
    (∀ (v : Nat) (pos : POSITION), (CList.Insert threeHeap threeList v pos).1 = .ok () ∧
      WellFormed (CList.Insert threeHeap threeList v pos).2.1
        (CList.Insert threeHeap threeList v pos).2.2) ∧
    (∀ (pos : POSITION) (v : Nat), (CList.Pop threeHeap threeList pos).1 = .ok v →
      WellFormed (CList.Pop threeHeap threeList pos).2.1
        (CList.Pop threeHeap threeList pos).2.2)) :=
  ⟨IsList.wellFormed (by decide : IsList threeHeap threeList [0, 1, 2] [10, 20, 30]),
    invariant_preserved threeHeap threeList
      (IsList.wellFormed (by decide : IsList threeHeap threeList [0, 1, 2] [10, 20, 30]))⟩

theorem forward_walk_witness :
    IsList threeHeap threeList [0, 1, 2] [10, 20, 30] ∧
    ∃ n, CList.Length 0 Nat.succ threeHeap threeList = (.ok n, threeHeap, threeList) ∧
      (∀ k, k ≤ n → ∃ it,
        Iterator.times Iterator.Increment k threeHeap (threeList.Begin POSITION.START)
          = (.ok (), threeHeap, it)) ∧
      ∃ it, Iterator.times Iterator.Increment n threeHeap (threeList.Begin POSITION.START)
          = (.ok (), threeHeap, it) ∧
        it.data = none ∧ it.Increment threeHeap = (.error .out_of_range, threeHeap, it) :=
  ⟨by decide, forward_walk threeHeap threeList [0, 1, 2] [10, 20, 30] (by decide)⟩

theorem backward_walk_witness :
    IsList threeHeap threeList [0, 1, 2] [10, 20, 30] ∧
    ∃ n, CList.Length 0 Nat.succ threeHeap threeList = (.ok n, threeHeap, threeList) ∧
      (∀ k, k ≤ n → ∃ it,
        Iterator.times Iterator.Decrement k threeHeap (threeList.Begin POSITION.END)
          = (.ok (), threeHeap, it)) ∧
      ∃ it, Iterator.times Iterator.Decrement n threeHeap (threeList.Begin POSITION.END)
          = (.ok (), threeHeap, it) ∧
        it.data = none ∧ it.Decrement threeHeap = (.error .out_of_range, threeHeap, it) :=
  ⟨by decide, backward_walk threeHeap threeList [0, 1, 2] [10, 20, 30] (by decide)⟩

theorem sentinel_recovery_witness :
    IsList threeHeap threeList [0, 1, 2] [10, 20, 30] ∧
    2 ≤ ([10, 20, 30] : List Nat).length ∧
    (((threeList.Begin POSITION.END).data = threeList.last → ∃ it1 it2 v,
      (threeList.Begin POSITION.END).Increment threeHeap = (.ok (), threeHeap, it1) ∧
      it1.data = none ∧
      it1.Decrement threeHeap = (.ok (), threeHeap, it2) ∧ it2.data = threeList.last ∧
      it2.deref threeHeap = (.ok v, threeHeap, it2) ∧
      ([10, 20, 30] : List Nat).getLast? = some v) ∧
    ((threeList.Begin POSITION.END).data = threeList.first → ∃ it1 it2 v,
      (threeList.Begin POSITION.END).Decrement threeHeap = (.ok (), threeHeap, it1) ∧
      it1.data = none ∧
      it1.Increment threeHeap = (.ok (), threeHeap, it2) ∧ it2.data = threeList.first ∧
      it2.deref threeHeap = (.ok v, threeHeap, it2) ∧
      ([10, 20, 30] : List Nat).head? = some v)) :=
  ⟨by decide, by decide,
    sentinel_recovery threeHeap threeList [0, 1, 2] [10, 20, 30] (by decide) (by decide)
      (threeList.Begin POSITION.END)⟩

end Witnesses

/-! ## Single steps, dereference and comparison -/

section StepLemmas

variable {V : Type u}

theorem increment_heap (h : Heap V) (it : Iterator) : (it.Increment h).2.1 = h := by
  unfold Iterator.Increment
  repeat' split
  all_goals rfl

theorem decrement_heap (h : Heap V) (it : Iterator) : (it.Decrement h).2.1 = h := by
  unfold Iterator.Decrement
  repeat' split
  all_goals rfl

theorem increment_first (h : Heap V) (it : Iterator) :
    (it.Increment h).2.2.first = it.first := by
  unfold Iterator.Increment
  repeat' split
  all_goals rfl

theorem decrement_first (h : Heap V) (it : Iterator) :
    (it.Decrement h).2.2.first = it.first := by
  unfold Iterator.Decrement
  repeat' split
  all_goals rfl

theorem increment_out_of_range (h : Heap V) (it : Iterator)
    (hf : (it.Increment h).1 = .error .out_of_range) :
    it.Increment h = (.error .out_of_range, h, it) := by
  unfold Iterator.Increment at hf ⊢
  repeat' split
  all_goals first
    | rfl
    | (exfalso; simp_all)

theorem decrement_out_of_range (h : Heap V) (it : Iterator)
    (hf : (it.Decrement h).1 = .error .out_of_range) :
    it.Decrement h = (.error .out_of_range, h, it) := by
  unfold Iterator.Decrement at hf ⊢
  repeat' split
  all_goals first
    | rfl
    | (exfalso; simp_all)

end StepLemmas

section StepClaims

variable {V : Type u}

/-- C11, as stated, fails: on the list `[10, 20, 30]` the iterator that stepped backward
off the first node `Y` (address `0`, whose `next` is address `1`) steps forward onto `Y`
itself, not onto `Y.next`; and the iterator that stepped forward off the last node
(address `2`, whose `previous` is address `1`) steps backward onto that last node. -/
theorem sentinel_step_lands_on_boundary :
    IsList threeHeap threeList [0, 1, 2] [10, 20, 30] ∧
    threeHeap.read 0 = some ⟨some 1, none, 10⟩ ∧
    Iterator.Increment threeHeap ⟨some 0, some 0, none⟩
      = (.ok (), threeHeap, ⟨some 0, some 1, some 0⟩) ∧
    (Iterator.Increment threeHeap ⟨some 0, some 0, none⟩).2.2.data ≠ some 1 ∧
    threeHeap.read 2 = some ⟨none, some 1, 30⟩ ∧
    Iterator.Decrement threeHeap ⟨some 0, some 2, none⟩
      = (.ok (), threeHeap, ⟨some 0, some 1, some 2⟩) ∧
    (Iterator.Decrement threeHeap ⟨some 0, some 2, none⟩).2.2.data ≠ some 1 :=
  ⟨by decide, rfl, rfl, by decide, rfl, rfl, by decide⟩

/-- C11 (amended): for an iterator without current node whose `previous_data` is a node
`Y`: if `Y.next` exists, the forward step succeeds and leaves the cursor on `Y` itself,
with `previous_data` now `Y.next`; if `Y.next` is absent, or `previous_data` is absent,
the forward step throws `out_of_range`.  The backward step is the same with `previous`
links. -/
theorem sentinel_step (h : Heap V) (it : Iterator) (hd : it.data = none) :
    (it.previous_data = none →
      it.Increment h = (.error .out_of_range, h, it) ∧
      it.Decrement h = (.error .out_of_range, h, it)) ∧
    (∀ y n, it.previous_data = some y → h.read y = some n →
      (∀ z, n.next = some z → it.Increment h = (.ok (), h, ⟨it.first, some z, some y⟩)) ∧
      (n.next = none → it.Increment h = (.error .out_of_range, h, it)) ∧
      (∀ z, n.previous = some z →
        it.Decrement h = (.ok (), h, ⟨it.first, some z, some y⟩)) ∧
      (n.previous = none → it.Decrement h = (.error .out_of_range, h, it))) := by
  refine ⟨fun hp => ?_, fun y n hp hr => ⟨fun z hz => ?_, fun hz => ?_, fun z hz => ?_,
    fun hz => ?_⟩⟩
  · simp [Iterator.Increment, Iterator.Decrement, hd, hp]
  · simp [Iterator.Increment, hd, hp, hr, hz]
  · simp [Iterator.Increment, hd, hp, hr, hz]
  · simp [Iterator.Decrement, hd, hp, hr, hz]
  · simp [Iterator.Decrement, hd, hp, hr, hz]

/-- C12: dereference throws `invalid_argument` exactly when the iterator has no current
node (`data` absent); on a current node it returns the value stored there and leaves the
heap (hence the list) and the iterator as they were. -/
theorem deref_spec (h : Heap V) (it : Iterator) :
    ((it.deref h).1 = .error .invalid_argument ↔ it.data = none) ∧
    (it.data = none → it.deref h = (.error .invalid_argument, h, it)) ∧
    (∀ d n, it.data = some d → h.read d = some n → it.deref h = (.ok n.value, h, it)) ∧
    (∀ (l : CList) (ps : List Nat) (xs : List V) (i d : Nat), IsList h l ps xs →
      ps[i]? = some d → it.data = some d →
      ∃ x, xs[i]? = some x ∧ it.deref h = (.ok x, h, it)) := by
  refine ⟨⟨fun hf => ?_, fun hd => by simp [Iterator.deref, hd]⟩,
    fun hd => by simp [Iterator.deref, hd],
    fun d n hd hr => by simp [Iterator.deref, hd, hr], fun l ps xs i d hl hp hd => ?_⟩
  · cases hdata : it.data with
    | none => rfl
    | some d =>
      exfalso
      cases hr : h.read d <;> simp [Iterator.deref, hdata, hr] at hf
  · obtain ⟨x, hx, hr⟩ := hl.read_at hp
    exact ⟨x, hx, by simp [Iterator.deref, hd, hr]⟩

/-- C14: whatever the iterator and the heap, a forward or backward step that throws
`out_of_range` leaves `first`, `previous_data` and `data` (and the heap) exactly as they
were before the call. -/
theorem failed_step_keeps_state (h : Heap V) (it : Iterator) (s : Step)
    (hf : (s.run h it).1 = .error .out_of_range) :
    s.run h it = (.error .out_of_range, h, it) ∧
    (s.run h it).2.2.first = it.first ∧
    (s.run h it).2.2.previous_data = it.previous_data ∧
    (s.run h it).2.2.data = it.data := by
  have hrun : s.run h it = (.error .out_of_range, h, it) := by
    cases s
    · exact increment_out_of_range h it hf
    · exact decrement_out_of_range h it hf
  rw [hrun]
  exact ⟨rfl, rfl, rfl, rfl⟩

/-- C16: for every list, `End()` is an iterator with no current node and no
`previous_data`; so is `Begin(pos)` on a list holding no element.  On either of them
dereference throws `invalid_argument` and both the forward and the backward step throw
`out_of_range`. -/
theorem end_sentinel (h : Heap V) (l : CList) :
    (l.End.data = none ∧ l.End.previous_data = none ∧
      l.End.deref h = ((.error .invalid_argument : Except Error V), h, l.End) ∧
      l.End.Increment h = (.error .out_of_range, h, l.End) ∧
      l.End.Decrement h = (.error .out_of_range, h, l.End)) ∧
    (∀ (ps : List Nat) (pos : POSITION), IsList h l ps ([] : List V) →
      (l.Begin pos).data = none ∧ (l.Begin pos).previous_data = none ∧
      (l.Begin pos).deref h = ((.error .invalid_argument : Except Error V), h, l.Begin pos) ∧
      (l.Begin pos).Increment h = (.error .out_of_range, h, l.Begin pos) ∧
      (l.Begin pos).Decrement h = (.error .out_of_range, h, l.Begin pos)) := by
  refine ⟨⟨rfl, rfl, rfl, rfl, rfl⟩, fun ps pos hl => ?_⟩
  have hps : ps = [] := hl.nil_iff.2 rfl
  have hfirst : l.first = none := by rw [hl.first_eq, hps]; rfl
  have hlast : l.last = none := by rw [hl.last_eq, hps]; rfl
  have hb : l.Begin pos = ⟨none, none, none⟩ := by
    cases pos <;> simp [CList.Begin, Iterator.ofNode, hfirst, hlast]
  rw [hb]
  exact ⟨rfl, rfl, rfl, rfl, rfl⟩

/-- C17: `operator==` holds exactly when the two iterators have the same current node
(`data`), whatever their `first` and `previous_data`, and `operator!=` is its negation.
So two iterators without current node are equal: in particular `End()` and an iterator
that stepped forward off the last node, or backward off the first. -/
theorem equality_on_data (h : Heap V) (l : CList) (ps : List Nat) (xs : List V)
    (hl : IsList h l ps xs) (a b : Iterator) :
    (a.eq b = true ↔ a.data = b.data) ∧
    a.ne b = !a.eq b ∧
    (a.data = none → b.data = none → a.eq b = true ∧ a.ne b = false) ∧
    (xs ≠ [] → a.data = l.last →
      (a.Increment h).1 = .ok () ∧
      (a.Increment h).2.2.eq l.End = true ∧ l.End.eq (a.Increment h).2.2 = true) ∧
    (xs ≠ [] → a.data = l.first →
      (a.Decrement h).1 = .ok () ∧
      (a.Decrement h).2.2.eq l.End = true ∧ l.End.eq (a.Decrement h).2.2 = true) := by
  refine ⟨by simp [Iterator.eq], by simp [Iterator.ne, Iterator.eq, bne],
    fun ha hb => by simp [Iterator.eq, Iterator.ne, ha, hb], fun hne hd => ?_,
    fun hne hd => ?_⟩
  · have hpos : 0 < ps.length := by
      rw [hl.lengths_agree]
      exact List.length_pos.2 hne
    have hi : ps.length - 1 < ps.length := by omega
    have hp : ps[ps.length - 1]? = some ps[ps.length - 1] := List.getElem?_eq_getElem hi
    have hlast : l.last = some ps[ps.length - 1] := by
      rw [hl.last_eq, List.getLast?_eq_getElem?, hp]
    have hnext : ps[ps.length - 1 + 1]? = none := List.getElem?_eq_none (by omega)
    rw [increment_on_node hl (hd.trans hlast) hp, hnext]
    exact ⟨rfl, rfl, rfl⟩
  · have hpos : 0 < ps.length := by
      rw [hl.lengths_agree]
      exact List.length_pos.2 hne
    have hp : ps[0]? = some ps[0] := List.getElem?_eq_getElem hpos
    have hfirst : l.first = some ps[0] := by rw [hl.first_eq_getElem?, hp]
    rw [decrement_on_node hl (hd.trans hfirst) hp]
    exact ⟨rfl, rfl, rfl⟩

end StepClaims

/-! ## Reset, advancing by a count, and the two ends as stacks -/

section RunLemmas

variable {V : Type u}

theorem runSteps_first :
    ∀ (steps : List Step) (h : Heap V) (it : Iterator),
      (runSteps h it steps).2.1 = h ∧ (runSteps h it steps).2.2.first = it.first
  | [], _, _ => ⟨rfl, rfl⟩
  | s :: ss, h, it => by
    have hh : (s.run h it).2.1 = h := by
      cases s
      · exact increment_heap h it
      · exact decrement_heap h it
    have hf : (s.run h it).2.2.first = it.first := by
      cases s
      · exact increment_first h it
      · exact decrement_first h it
    obtain ⟨ih1, ih2⟩ := runSteps_first ss (s.run h it).2.1 (s.run h it).2.2
    exact ⟨ih1.trans hh, ih2.trans hf⟩

theorem plus_failure :
    ∀ (n : Nat) (h : Heap V) (it : Iterator),
      (it.plus h n).1 = .error .out_of_range →
      ∃ k, k < n ∧
        Iterator.times Iterator.Increment k h it = (.ok (), h, (it.plus h n).2.2) ∧
        (it.plus h n).2.1 = h ∧
        (it.plus h n).2.2.Increment h = (.error .out_of_range, h, (it.plus h n).2.2)
  | 0, h, it, hf => by simp [Iterator.plus] at hf
  | n + 1, h, it, hf => by
    have hheap := increment_heap h it
    rcases hstep : it.Increment h with ⟨r, h1, it1⟩
    rw [hstep] at hheap
    obtain rfl : h1 = h := hheap
    cases r with
    | ok u =>
      have hp : it.plus h1 (n + 1) = it1.plus h1 n := by
        simp [Iterator.plus, hstep]
      rw [hp] at hf ⊢
      obtain ⟨k, hk, ht, hh, hi⟩ := plus_failure n h1 it1 hf
      refine ⟨k + 1, by omega, ?_, hh, hi⟩
      simp only [Iterator.times, hstep, ht]
    | error e =>
      have hp : it.plus h1 (n + 1) = (.error e, h1, it1) := by
        simp [Iterator.plus, hstep]
      rw [hp] at hf ⊢
      obtain rfl : e = .out_of_range := by simpa using hf
      have hkeep := increment_out_of_range h1 it (by rw [hstep])
      rw [hstep] at hkeep
      obtain rfl : it1 = it := by
        have := congrArg (fun r => r.2.2) hkeep
        simpa using this
      exact ⟨0, by omega, rfl, rfl, hstep⟩

theorem minus_failure :
    ∀ (n : Nat) (h : Heap V) (it : Iterator),
      (it.minus h n).1 = .error .out_of_range →
      ∃ k, k < n ∧
        Iterator.times Iterator.Decrement k h it = (.ok (), h, (it.minus h n).2.2) ∧
        (it.minus h n).2.1 = h ∧
        (it.minus h n).2.2.Decrement h = (.error .out_of_range, h, (it.minus h n).2.2)
  | 0, h, it, hf => by simp [Iterator.minus] at hf
  | n + 1, h, it, hf => by
    have hheap := decrement_heap h it
    rcases hstep : it.Decrement h with ⟨r, h1, it1⟩
    rw [hstep] at hheap
    obtain rfl : h1 = h := hheap
    cases r with
    | ok u =>
      have hp : it.minus h1 (n + 1) = it1.minus h1 n := by
        simp [Iterator.minus, hstep]
      rw [hp] at hf ⊢
      obtain ⟨k, hk, ht, hh, hi⟩ := minus_failure n h1 it1 hf
      refine ⟨k + 1, by omega, ?_, hh, hi⟩
      simp only [Iterator.times, hstep, ht]
    | error e =>
      have hp : it.minus h1 (n + 1) = (.error e, h1, it1) := by
        simp [Iterator.minus, hstep]
      rw [hp] at hf ⊢
      obtain rfl : e = .out_of_range := by simpa using hf
      have hkeep := decrement_out_of_range h1 it (by rw [hstep])
      rw [hstep] at hkeep
      obtain rfl : it1 = it := by
        have := congrArg (fun r => r.2.2) hkeep
        simpa using this
      exact ⟨0, by omega, rfl, rfl, hstep⟩

end RunLemmas

section RunClaims

variable {V : Type u}

/-- C15, as stated, fails: on the list `[10, 20, 30]`, advancing `Begin(START)` by 5 throws
`out_of_range` after three steps were made, and the iterator is left where those steps
took it, not where it was before the call; retreating `Begin(END)` by 5 does the same. -/
theorem advance_keeps_partial_steps :
    IsList threeHeap threeList [0, 1, 2] [10, 20, 30] ∧
    (threeList.Begin POSITION.START).plus threeHeap 5
      = (.error .out_of_range, threeHeap, ⟨some 0, some 2, none⟩) ∧
    ((threeList.Begin POSITION.START).plus threeHeap 5).2.2 ≠ threeList.Begin POSITION.START ∧
    (threeList.Begin POSITION.END).minus threeHeap 5
      = (.error .out_of_range, threeHeap, ⟨some 2, some 0, none⟩) ∧
    ((threeList.Begin POSITION.END).minus threeHeap 5).2.2 ≠ threeList.Begin POSITION.END :=
  ⟨by decide, rfl, by decide, rfl, by decide⟩

/-- C15 (amended): when advancing by `n` throws `out_of_range`, the iterator is left in
the state reached by the `k < n` forward steps that succeeded before the failing one, a
state from which one more forward step throws `out_of_range`; the heap is untouched.
Retreating by `n` is the same with backward steps. -/
theorem advance_failure_state (h : Heap V) (it : Iterator) (n : Nat) :
    ((it.plus h n).1 = .error .out_of_range →
      ∃ k, k < n ∧
        Iterator.times Iterator.Increment k h it = (.ok (), h, (it.plus h n).2.2) ∧
        (it.plus h n).2.1 = h ∧
        (it.plus h n).2.2.Increment h = (.error .out_of_range, h, (it.plus h n).2.2)) ∧
    ((it.minus h n).1 = .error .out_of_range →
      ∃ k, k < n ∧
        Iterator.times Iterator.Decrement k h it = (.ok (), h, (it.minus h n).2.2) ∧
        (it.minus h n).2.1 = h ∧
        (it.minus h n).2.2.Decrement h = (.error .out_of_range, h, (it.minus h n).2.2)) :=
  ⟨plus_failure n h it, minus_failure n h it⟩

/-- C18: take the iterator `Begin(pos)` of any list and make any sequence of forward and
backward steps with it, failed ones included.  The heap is as it was, and `Reset` then
returns normally and leaves the iterator equal to a freshly constructed `Begin(pos)`:
`data`, `previous_data` and `first` are all the node it was constructed at. -/
theorem reset_restores (h : Heap V) (l : CList) (pos : POSITION) (steps : List Step) :
    (runSteps h (l.Begin pos) steps).2.1 = h ∧
    Iterator.Reset (runSteps h (l.Begin pos) steps).2.1 (runSteps h (l.Begin pos) steps).2.2
      = (.ok (), h, l.Begin pos) ∧
    (l.Begin pos).data = (l.Begin pos).first ∧
    (l.Begin pos).previous_data = (l.Begin pos).first := by
  obtain ⟨hh, hf⟩ := runSteps_first steps h (l.Begin pos)
  refine ⟨hh, ?_, rfl, rfl⟩
  simp only [Iterator.Reset, hh, hf]
  rfl

/-- C19: on a list holding `xs`, `Append(v)` followed at once by `Pop(END)` returns `v`,
and `Prepend(v)` followed at once by `Pop(START)` returns `v`; either way the list holds
`xs` again afterwards, on the same nodes. -/
theorem lifo_ends (h : Heap V) (l : CList) (ps : List Nat) (xs : List V) (v : V)
    (hl : IsList h l ps xs) :
    (∃ h1 l1 h2 l2, CList.Append h l v = (.ok (), h1, l1) ∧
      CList.Pop h1 l1 POSITION.END = (.ok v, h2, l2) ∧ IsList h2 l2 ps xs) ∧
    (∃ h1 l1 h2 l2, CList.Prepend h l v = (.ok (), h1, l1) ∧
      CList.Pop h1 l1 POSITION.START = (.ok v, h2, l2) ∧ IsList h2 l2 ps xs) := by
  constructor
  · obtain ⟨h1, l1, hrun, hlist, _, _⟩ := insert_end_run v hl
    obtain ⟨h2, l2, hpop, hlist2, _, _⟩ := pop_end_run hlist
    exact ⟨h1, l1, h2, l2, hrun, hpop, hlist2⟩
  · obtain ⟨h1, l1, hrun, hlist, _, _⟩ := insert_start_run v hl
    obtain ⟨h2, l2, hpop, hlist2, _, _⟩ := pop_start_run hlist
    exact ⟨h1, l1, h2, l2, hrun, hpop, hlist2⟩

end RunClaims

/-! ## Assigning through an iterator -/

section AssignLemmas

variable {V : Type u}

theorem Linked.set_value {h : Heap V} (v : V) :
    ∀ {ps : List Nat} {prev : Option Nat} {xs : List V} {nxt : Option Nat} (i p : Nat)
      (n : Node V), Linked h prev ps xs nxt → ps.Nodup → ps[i]? = some p →
      h.read p = some n →
      Linked (h.write p ⟨n.next, n.previous, v⟩) prev ps (xs.set i v) nxt
  | [], _, _, _, i, p, _, _, _, hp, _ => by simp at hp
  | _ :: _, _, [], _, _, _, _, hl, _, _, _ => by simp [Linked] at hl
  | q :: ps, prev, x :: xs, nxt, 0, p, n, hl, hnd, hp, hr => by
    obtain rfl : q = p := by simpa using hp
    have hnd2 := List.nodup_cons.1 hnd
    have hn : n = ⟨ps.head?.or nxt, prev, x⟩ := by
      have := hl.1
      rw [hr] at this
      exact Option.some.inj this
    subst hn
    refine ⟨?_, Linked.frame (fun a ha => ?_) hl.2⟩
    · rw [Heap.read_write_live hr, if_pos rfl]
    · have haq : a ≠ q := fun e => hnd2.1 (e ▸ ha)
      rw [Heap.read_write_live hr, if_neg haq]
  | q :: ps, prev, x :: xs, nxt, i + 1, p, n, hl, hnd, hp, hr => by
    have hnd2 := List.nodup_cons.1 hnd
    have hp2 : ps[i]? = some p := by simpa using hp
    have hmem : p ∈ ps := List.getElem?_mem hp2
    have hqp : q ≠ p := fun e => hnd2.1 (e ▸ hmem)
    refine ⟨?_, Linked.set_value v i p n hl.2 hnd2.2 hp2 hr⟩
    rw [Heap.read_write_live hr, if_neg hqp]
    exact hl.1

theorem assign_run {h : Heap V} {l : CList} {ps : List Nat} {xs : List V}
    (hl : IsList h l ps xs) {it : Iterator} {i p : Nat} (v : V) (hp : ps[i]? = some p)
    (hd : it.data = some p) :
    ∃ h1 n, it.assign h v = (.ok (), h1, it) ∧ IsList h1 l ps (xs.set i v) ∧
      (∀ a, a ≠ p → h1.read a = h.read a) ∧
      h.read p = some n ∧ h1.read p = some ⟨n.next, n.previous, v⟩ := by
  obtain ⟨n, hr⟩ := hl.links.live p (List.getElem?_mem hp)
  refine ⟨h.write p ⟨n.next, n.previous, v⟩, n, ?_, ?_, ?_, hr, ?_⟩
  · simp [Iterator.assign, hd, Heap.setValue, hr]
  · exact ⟨hl.nodup, hl.first_eq, hl.last_eq, Linked.set_value v i p n hl.links hl.nodup hp hr⟩
  · intro a ha
    rw [Heap.read_write_live hr, if_neg ha]
  · rw [Heap.read_write_live hr, if_pos rfl]

theorem peek_pop_head {h : Heap V} {l : CList} {ps : List Nat} {xs : List V}
    (hl : IsList h l ps xs) {x : V} (hx : xs.head? = some x) :
    CList.Peek h l POSITION.START = (.ok x, h, l) ∧
    (CList.Pop h l POSITION.START).1 = .ok x := by
  cases xs with
  | nil => simp at hx
  | cons y xs1 =>
    obtain rfl : y = x := by simpa using hx
    cases ps with
    | nil => exact absurd hl.lengths_agree (by simp)
    | cons f ps1 =>
      obtain ⟨h1, l1, hpop, _⟩ := pop_start_run hl
      exact ⟨peek_start_run hl, by rw [hpop]⟩

theorem peek_pop_last {h : Heap V} {l : CList} {ps : List Nat} {xs : List V}
    (hl : IsList h l ps xs) {x : V} (hx : xs.getLast? = some x) :
    CList.Peek h l POSITION.END = (.ok x, h, l) ∧
    (CList.Pop h l POSITION.END).1 = .ok x := by
  have hne : xs ≠ [] := by
    rintro rfl
    simp at hx
  obtain ⟨ps1, t, rfl, hxs⟩ := hl.snoc_of_ne_nil hne
  have hlast : xs.getLast hne = x := by
    rw [List.getLast?_eq_getLast xs hne] at hx
    exact Option.some.inj hx
  rw [hlast] at hxs
  have hl1 := hl
  rw [hxs] at hl1
  obtain ⟨h1, l1, hpop, _⟩ := pop_end_run hl1
  exact ⟨peek_end_run hl1, by rw [hpop]⟩

theorem runCalls_pop_start :
    ∀ (k : Nat) {h : Heap V} {l : CList} {ps : List Nat} {xs : List V},
      IsList h l ps xs → k ≤ xs.length →
      IsList (runCalls h l (List.replicate k (Call.Pop POSITION.START))).2.1
        (runCalls h l (List.replicate k (Call.Pop POSITION.START))).2.2
        (ps.drop k) (xs.drop k)
  | 0, _, _, _, _, hl, _ => by simpa [runCalls] using hl
  | k + 1, h, l, ps, xs, hl, hk => by
    cases xs with
    | nil => simp at hk
    | cons x xs1 =>
      cases ps with
      | nil => exact absurd hl.lengths_agree (by simp)
      | cons f ps1 =>
        obtain ⟨h1, l1, hpop, hlist, _, _⟩ := pop_start_run hl
        have ih := runCalls_pop_start k hlist (by simpa using hk)
        simpa [List.replicate_succ, runCalls, Call.run, hpop] using ih

theorem runCalls_pop_end :
    ∀ (k : Nat) {h : Heap V} {l : CList} {ps : List Nat} {xs : List V},
      IsList h l ps xs → k ≤ xs.length →
      IsList (runCalls h l (List.replicate k (Call.Pop POSITION.END))).2.1
        (runCalls h l (List.replicate k (Call.Pop POSITION.END))).2.2
        (ps.take (ps.length - k)) (xs.take (xs.length - k))
  | 0, _, _, _, _, hl, _ => by simpa [runCalls] using hl
  | k + 1, h, l, ps, xs, hl, hk => by
    have hne : xs ≠ [] := by
      rintro rfl
      simp at hk
    obtain ⟨ps1, t, rfl, hxs⟩ := hl.snoc_of_ne_nil hne
    have hl1 := hl
    rw [hxs] at hl1
    obtain ⟨h1, l1, hpop, hlist, _, _⟩ := pop_end_run hl1
    have hlen : xs.dropLast.length = xs.length - 1 := List.length_dropLast xs
    have ih := runCalls_pop_end k hlist (by omega)
    have e1 : (ps1 ++ [t]).take ((ps1 ++ [t]).length - (k + 1)) = ps1.take (ps1.length - k) := by
      have : (ps1 ++ [t]).length - (k + 1) = ps1.length - k := by simp
      rw [this, List.take_append_of_le_length (Nat.sub_le _ _)]
    have e2 : xs.take (xs.length - (k + 1)) = xs.dropLast.take (xs.dropLast.length - k) := by
      have hx : xs.dropLast.length - k = xs.length - (k + 1) := by omega
      have hmin : (xs.length - (k + 1)) ⊓ (xs.length - 1) = xs.length - (k + 1) := by
        simp only [Nat.min_def]
        split <;> omega
      rw [hx, List.dropLast_eq_take, List.take_take, hmin]
    rw [e1, e2]
    simpa [List.replicate_succ, runCalls, Call.run, hpop] using ih

end AssignLemmas

section AssignClaim

variable {V : Type u}

/-- C13: on a list holding `xs`, assigning `v` through an iterator on the node at index `i`
returns normally, leaves the iterator as it was and the list holding `xs` with element `i`
replaced by `v`, on the same nodes with the same links; no other cell of the heap changes.
A `Peek` or `Pop` that reaches that position, after `i` pops from the front or after the
pops from the back that remove the elements behind it, returns `v`.  Through an iterator
without current node the assignment throws `invalid_argument` and the heap is untouched. -/
theorem assign_through (h : Heap V) (l : CList) (ps : List Nat) (xs : List V)
    (hl : IsList h l ps xs) (it : Iterator) (v : V) :
    (it.data = none → it.assign h v = (.error .invalid_argument, h, it)) ∧
    (∀ i p, ps[i]? = some p → it.data = some p →
      ∃ h1, it.assign h v = (.ok (), h1, it) ∧ IsList h1 l ps (xs.set i v) ∧
        (∀ a, a ≠ p → h1.read a = h.read a) ∧
        (∃ n, h.read p = some n ∧ h1.read p = some ⟨n.next, n.previous, v⟩) ∧
        (CList.Peek (runCalls h1 l (List.replicate i (Call.Pop POSITION.START))).2.1
          (runCalls h1 l (List.replicate i (Call.Pop POSITION.START))).2.2
          POSITION.START).1 = .ok v ∧
        (CList.Pop (runCalls h1 l (List.replicate i (Call.Pop POSITION.START))).2.1
          (runCalls h1 l (List.replicate i (Call.Pop POSITION.START))).2.2
          POSITION.START).1 = .ok v ∧
        (CList.Peek
          (runCalls h1 l (List.replicate (xs.length - 1 - i) (Call.Pop POSITION.END))).2.1
          (runCalls h1 l (List.replicate (xs.length - 1 - i) (Call.Pop POSITION.END))).2.2
          POSITION.END).1 = .ok v ∧
        (CList.Pop
          (runCalls h1 l (List.replicate (xs.length - 1 - i) (Call.Pop POSITION.END))).2.1
          (runCalls h1 l (List.replicate (xs.length - 1 - i) (Call.Pop POSITION.END))).2.2
          POSITION.END).1 = .ok v) := by
  refine ⟨fun hd => by simp [Iterator.assign, hd], fun i p hp hd => ?_⟩
  obtain ⟨h1, n, hrun, hlist, hframe, hr, hr1⟩ := assign_run hl v hp hd
  have hi : i < xs.length := by
    rw [← hl.lengths_agree]
    by_contra hge
    rw [List.getElem?_eq_none (Nat.le_of_not_lt hge)] at hp
    cases hp
  have hlen : (xs.set i v).length = xs.length := List.length_set xs i v
  have hget : (xs.set i v)[i]? = some v := List.getElem?_set_self hi
  have hfront := runCalls_pop_start i hlist (by omega)
  have hback := runCalls_pop_end (xs.length - 1 - i) hlist (by omega)
  have hhead : ((xs.set i v).drop i).head? = some v := by
    rw [List.head?_drop, hget]
  have hlast : ((xs.set i v).take ((xs.set i v).length - (xs.length - 1 - i))).getLast?
      = some v := by
    have hk : (xs.set i v).length - (xs.length - 1 - i) = i + 1 := by omega
    rw [hk, List.getLast?_take, if_neg (by omega), Nat.add_sub_cancel, hget]
    rfl
  obtain ⟨hpeek1, hpop1⟩ := peek_pop_head hfront hhead
  obtain ⟨hpeek2, hpop2⟩ := peek_pop_last hback hlast
  refine ⟨h1, hrun, hlist, hframe, ⟨n, hr, hr1⟩, by rw [hpeek1], hpop1, by rw [hpeek2],
    hpop2⟩

end AssignClaim

/-! ## The iterator as an integer cursor -/

section CursorLemmas

variable {V : Type u}

theorem sim_forward {h : Heap V} {l : CList} {ps : List Nat} {xs : List V}
    (hl : IsList h l ps xs) (hn : 2 ≤ ps.length) {it : Iterator} {p : Int}
    (hs : Simulates ps it p) :
    ∃ it1, it.Increment h = ((Cursor.forward ps.length p).1, h, it1) ∧
      Simulates ps it1 (Cursor.forward ps.length p).2 := by
  rcases hs with ⟨rfl, hd, hprev⟩ | ⟨h0, hlt, hd⟩ | ⟨rfl, hd, hprev⟩
  · have h0 : ps[0]? = some ps[0] := List.getElem?_eq_getElem (by omega)
    have h1 : ps[0 + 1]? = some ps[1] := List.getElem?_eq_getElem (by omega)
    obtain ⟨x, _, hr⟩ := hl.read_at h0
    rw [h1] at hr
    rw [h0] at hprev
    have hc : Cursor.forward ps.length (-1) = (.ok (), 0) := by
      have : ¬ ((-1 : Int) = ps.length) := by omega
      simp [Cursor.forward, this]
    refine ⟨⟨it.first, some ps[1], some ps[0]⟩, ?_, ?_⟩
    · simp [Iterator.Increment, hd, hprev, hr, hc]
    · rw [hc]
      exact Or.inr (Or.inl ⟨by omega, by omega, by simp⟩)
  · obtain ⟨i, rfl⟩ := Int.eq_ofNat_of_zero_le h0
    have hi : i < ps.length := by omega
    have hp : ps[i]? = some ps[i] := List.getElem?_eq_getElem hi
    have hd1 : it.data = some ps[i] := by simpa [hp] using hd
    have hc : Cursor.forward ps.length (i : Int) = (.ok (), (i : Int) + 1) := by
      have : ¬ ((i : Int) = ps.length) := by omega
      simp [Cursor.forward, this]
    refine ⟨⟨it.first, some ps[i], ps[i + 1]?⟩, ?_, ?_⟩
    · rw [increment_on_node hl hd1 hp, hc]
    · rw [hc]
      by_cases hlast : i + 1 < ps.length
      · refine Or.inr (Or.inl ⟨by omega, by omega, ?_⟩)
        have : ((i : Int) + 1).toNat = i + 1 := by omega
        rw [this]
      · have hi1 : i + 1 = ps.length := by omega
        refine Or.inr (Or.inr ⟨by omega, ?_, ?_⟩)
        · exact List.getElem?_eq_none (by omega)
        · show some ps[i] = ps[ps.length - 1]?
          have : ps.length - 1 = i := by omega
          rw [this, hp]
  · have hi : ps.length - 1 < ps.length := by omega
    have hp : ps[ps.length - 1]? = some ps[ps.length - 1] := List.getElem?_eq_getElem hi
    obtain ⟨x, _, hr⟩ := hl.read_at hp
    have hnext : ps[ps.length - 1 + 1]? = none := List.getElem?_eq_none (by omega)
    rw [hnext] at hr
    rw [hp] at hprev
    have hc : Cursor.forward ps.length (ps.length : Int)
        = (.error .out_of_range, (ps.length : Int)) := by
      simp [Cursor.forward]
    refine ⟨it, ?_, ?_⟩
    · simp [Iterator.Increment, hd, hprev, hr, hc]
    · rw [hc]
      exact Or.inr (Or.inr ⟨rfl, hd, by rw [hprev, hp]⟩)

theorem sim_backward {h : Heap V} {l : CList} {ps : List Nat} {xs : List V}
    (hl : IsList h l ps xs) (hn : 2 ≤ ps.length) {it : Iterator} {p : Int}
    (hs : Simulates ps it p) :
    ∃ it1, it.Decrement h = ((Cursor.backward p).1, h, it1) ∧
      Simulates ps it1 (Cursor.backward p).2 := by
  rcases hs with ⟨rfl, hd, hprev⟩ | ⟨h0, hlt, hd⟩ | ⟨rfl, hd, hprev⟩
  · have h0 : ps[0]? = some ps[0] := List.getElem?_eq_getElem (by omega)
    obtain ⟨x, _, hr⟩ := hl.read_at h0
    have hb : nodeBefore ps 0 = none := rfl
    rw [hb] at hr
    rw [h0] at hprev
    have hc : Cursor.backward (-1) = (.error .out_of_range, -1) := by
      simp [Cursor.backward]
    refine ⟨it, ?_, ?_⟩
    · simp [Iterator.Decrement, hd, hprev, hr, hc]
    · rw [hc]
      exact Or.inl ⟨rfl, hd, by rw [hprev, h0]⟩
  · obtain ⟨i, rfl⟩ := Int.eq_ofNat_of_zero_le h0
    have hi : i < ps.length := by omega
    have hp : ps[i]? = some ps[i] := List.getElem?_eq_getElem hi
    have hd1 : it.data = some ps[i] := by simpa [hp] using hd
    have hc : Cursor.backward (i : Int) = (.ok (), (i : Int) - 1) := by
      have : ¬ ((i : Int) = -1) := by omega
      simp [Cursor.backward, this]
    refine ⟨⟨it.first, some ps[i], nodeBefore ps i⟩, ?_, ?_⟩
    · rw [decrement_on_node hl hd1 hp, hc]
    · rw [hc]
      by_cases hzero : i = 0
      · subst hzero
        exact Or.inl ⟨by omega, rfl, hp.symm⟩
      · refine Or.inr (Or.inl ⟨by omega, by omega, ?_⟩)
        have : ((i : Int) - 1).toNat = i - 1 := by omega
        rw [this]
        simp [nodeBefore, hzero]
  · have hi : ps.length - 1 < ps.length := by omega
    have hp : ps[ps.length - 1]? = some ps[ps.length - 1] := List.getElem?_eq_getElem hi
    obtain ⟨x, _, hr⟩ := hl.read_at hp
    have hj : ps.length - 1 - 1 < ps.length := by omega
    have hb : nodeBefore ps (ps.length - 1) = some ps[ps.length - 1 - 1] := by
      rw [nodeBefore, if_neg (by omega)]
      exact List.getElem?_eq_getElem hj
    rw [hb] at hr
    rw [hp] at hprev
    have hc : Cursor.backward (ps.length : Int) = (.ok (), (ps.length : Int) - 1) := by
      have : ¬ ((ps.length : Int) = -1) := by omega
      simp [Cursor.backward, this]
    refine ⟨⟨it.first, some ps[ps.length - 1 - 1], some ps[ps.length - 1]⟩, ?_, ?_⟩
    · simp [Iterator.Decrement, hd, hprev, hr, hc]
    · rw [hc]
      refine Or.inr (Or.inl ⟨by omega, by omega, ?_⟩)
      have : ((ps.length : Int) - 1).toNat = ps.length - 1 := by omega
      rw [this, hp]

theorem sim_deref {h : Heap V} {l : CList} {ps : List Nat} {xs : List V}
    (hl : IsList h l ps xs) {it : Iterator} {p : Int} (hs : Simulates ps it p) :
    it.deref h = (Cursor.deref xs p, h, it) := by
  rcases hs with ⟨rfl, hd, _⟩ | ⟨h0, hlt, hd⟩ | ⟨rfl, hd, _⟩
  · simp [Iterator.deref, hd, Cursor.deref]
  · obtain ⟨i, rfl⟩ := Int.eq_ofNat_of_zero_le h0
    have hi : i < ps.length := by omega
    have hp : ps[i]? = some ps[i] := List.getElem?_eq_getElem hi
    have hd1 : it.data = some ps[i] := by simpa [hp] using hd
    obtain ⟨x, hx, hr⟩ := hl.read_at hp
    have hneg : ¬ ((i : Int) < 0) := by omega
    simp [Iterator.deref, hd1, hr, Cursor.deref, hneg, hx]
  · have hnone : xs[ps.length]? = none :=
      List.getElem?_eq_none (by rw [hl.lengths_agree])
    have hneg : ¬ ((ps.length : Int) < 0) := by omega
    simp [Iterator.deref, hd, Cursor.deref, hneg, hnone]

theorem sim_range {ps : List Nat} {it : Iterator} {p : Int} (hs : Simulates ps it p) :
    -1 ≤ p ∧ p ≤ ps.length := by
  rcases hs with ⟨rfl, _, _⟩ | ⟨h0, hlt, _⟩ | ⟨rfl, _, _⟩ <;> constructor <;> omega

theorem sim_run {h : Heap V} {l : CList} {ps : List Nat} {xs : List V}
    (hl : IsList h l ps xs) (hn : 2 ≤ ps.length) :
    ∀ (steps : List Step) (it : Iterator) (p : Int), Simulates ps it p →
      (runSteps h it steps).1 = (Cursor.runSteps ps.length p steps).1 ∧
      (runSteps h it steps).2.1 = h ∧
      Simulates ps (runSteps h it steps).2.2 (Cursor.runSteps ps.length p steps).2
  | [], _, _, hs => ⟨rfl, rfl, hs⟩
  | s :: ss, it, p, hs => by
    have hstep : ∃ it1, s.run h it = ((Cursor.step ps.length p s).1, h, it1) ∧
        Simulates ps it1 (Cursor.step ps.length p s).2 := by
      cases s
      · exact sim_forward hl hn hs
      · exact sim_backward hl hn hs
    obtain ⟨it1, hrun, hs1⟩ := hstep
    obtain ⟨ih1, ih2, ih3⟩ := sim_run hl hn ss it1 (Cursor.step ps.length p s).2 hs1
    have e1 : runSteps h it (s :: ss)
        = ((s.run h it).1 :: (runSteps (s.run h it).2.1 (s.run h it).2.2 ss).1,
          (runSteps (s.run h it).2.1 (s.run h it).2.2 ss).2.1,
          (runSteps (s.run h it).2.1 (s.run h it).2.2 ss).2.2) := rfl
    have e2 : Cursor.runSteps ps.length p (s :: ss)
        = ((Cursor.step ps.length p s).1 ::
            (Cursor.runSteps ps.length (Cursor.step ps.length p s).2 ss).1,
          (Cursor.runSteps ps.length (Cursor.step ps.length p s).2 ss).2) := rfl
    rw [e1, e2, hrun]
    exact ⟨by rw [ih1], ih2, ih3⟩

end CursorLemmas

section CursorClaim

variable {V : Type u}

theorem cursor_forward_fails (n : Nat) (p : Int) :
    (Cursor.forward n p).1 = .error .out_of_range ↔ p = n := by
  unfold Cursor.forward
  split <;> simp_all

theorem cursor_backward_fails (p : Int) :
    (Cursor.backward p).1 = .error .out_of_range ↔ p = -1 := by
  unfold Cursor.backward
  split <;> simp_all

theorem cursor_deref_spec (xs : List V) (p : Int) (h1 : -1 ≤ p) (h2 : p ≤ xs.length) :
    (Cursor.deref xs p = .error .invalid_argument ↔ p = -1 ∨ p = xs.length) ∧
    (0 ≤ p → p < xs.length → ∃ x, xs[p.toNat]? = some x ∧ Cursor.deref xs p = .ok x) := by
  unfold Cursor.deref
  by_cases hneg : p < 0
  · rw [if_pos hneg]
    exact ⟨⟨fun _ => Or.inl (by omega), fun _ => rfl⟩, fun h0 => absurd hneg (by omega)⟩
  · rw [if_neg hneg]
    by_cases hlt : p.toNat < xs.length
    · have hx : xs[p.toNat]? = some xs[p.toNat] := List.getElem?_eq_getElem hlt
      rw [hx]
      refine ⟨⟨fun hf => Except.noConfusion hf, fun hp => ?_⟩, fun _ _ => ⟨_, rfl, rfl⟩⟩
      rcases hp with hp | hp <;> omega
    · have hx : xs[p.toNat]? = none := List.getElem?_eq_none (by omega)
      rw [hx]
      exact ⟨⟨fun _ => Or.inr (by omega), fun _ => rfl⟩, fun _ hp => by omega⟩

/-- C20: on a list holding `xs` with at least two elements, the iterator behaves as an
integer cursor `p` between `-1` and `n = xs.length`.  `Begin(START)` stands for `p = 0`
and `Begin(END)` for `p = n - 1`.  From an iterator standing for `p`, the forward step
throws `out_of_range` exactly when `p = n` and otherwise stands for `p + 1`, the backward
step throws exactly when `p = -1` and otherwise stands for `p - 1`, and dereference
returns `xs[p]` when `0 ≤ p < n` and throws `invalid_argument` exactly when `p` is `-1`
or `n`; no step touches the heap.  So any sequence of steps from `Begin` has the outcomes
of the same steps of the cursor and ends on an iterator standing for the cursor's
position. -/
theorem cursor_refinement (h : Heap V) (l : CList) (ps : List Nat) (xs : List V)
    (hl : IsList h l ps xs) (hn : 2 ≤ xs.length) :
    Simulates ps (l.Begin POSITION.START) 0 ∧
    Simulates ps (l.Begin POSITION.END) ((xs.length : Int) - 1) ∧
    (∀ it p, Simulates ps it p →
      (-1 ≤ p ∧ p ≤ xs.length) ∧
      ((it.Increment h).1 = (Cursor.forward xs.length p).1 ∧ (it.Increment h).2.1 = h ∧
        Simulates ps (it.Increment h).2.2 (Cursor.forward xs.length p).2) ∧
      ((it.Decrement h).1 = (Cursor.backward p).1 ∧ (it.Decrement h).2.1 = h ∧
        Simulates ps (it.Decrement h).2.2 (Cursor.backward p).2) ∧
      it.deref h = (Cursor.deref xs p, h, it) ∧
      ((it.Increment h).1 = .error .out_of_range ↔ p = xs.length) ∧
      ((it.Decrement h).1 = .error .out_of_range ↔ p = -1) ∧
      ((it.deref h).1 = .error .invalid_argument ↔ p = -1 ∨ p = xs.length) ∧
      (0 ≤ p → p < xs.length → ∃ x, xs[p.toNat]? = some x ∧ (it.deref h).1 = .ok x)) ∧
    (∀ steps : List Step,
      (runSteps h (l.Begin POSITION.START) steps).1 = (Cursor.runSteps xs.length 0 steps).1 ∧
      (runSteps h (l.Begin POSITION.START) steps).2.1 = h ∧
      Simulates ps (runSteps h (l.Begin POSITION.START) steps).2.2
        (Cursor.runSteps xs.length 0 steps).2) ∧
    (∀ steps : List Step,
      (runSteps h (l.Begin POSITION.END) steps).1
        = (Cursor.runSteps xs.length ((xs.length : Int) - 1) steps).1 ∧
      (runSteps h (l.Begin POSITION.END) steps).2.1 = h ∧
      Simulates ps (runSteps h (l.Begin POSITION.END) steps).2.2
        (Cursor.runSteps xs.length ((xs.length : Int) - 1) steps).2) := by
  have hlen := hl.lengths_agree
  have hn2 : 2 ≤ ps.length := by omega
  have hstart : Simulates ps (l.Begin POSITION.START) 0 := by
    refine Or.inr (Or.inl ⟨by omega, by omega, ?_⟩)
    show l.first = ps[(0 : Int).toNat]?
    rw [hl.first_eq_getElem?]
    rfl
  have hend : Simulates ps (l.Begin POSITION.END) ((xs.length : Int) - 1) := by
    refine Or.inr (Or.inl ⟨by omega, by omega, ?_⟩)
    show l.last = ps[((xs.length : Int) - 1).toNat]?
    have : ((xs.length : Int) - 1).toNat = ps.length - 1 := by omega
    rw [this, hl.last_eq, List.getLast?_eq_getElem?]
  rw [← hlen]
  rw [← hlen] at hend
  refine ⟨hstart, hend, fun it p hs => ?_, fun steps => sim_run hl hn2 steps _ _ hstart,
    fun steps => sim_run hl hn2 steps _ _ hend⟩
  obtain ⟨it1, hinc, hs1⟩ := sim_forward hl hn2 hs
  obtain ⟨it2, hdec, hs2⟩ := sim_backward hl hn2 hs
  have hder := sim_deref hl hs
  obtain ⟨hr1, hr2⟩ := sim_range hs
  obtain ⟨hd1, hd2⟩ := cursor_deref_spec xs p hr1 (by omega)
  rw [hinc, hdec, hder]
  refine ⟨⟨hr1, hr2⟩, ⟨rfl, rfl, hs1⟩, ⟨rfl, rfl, hs2⟩, rfl, cursor_forward_fails _ _,
    cursor_backward_fails _, ?_, ?_⟩
  · rw [hlen]
    exact hd1
  · rw [hlen]
    exact hd2

end CursorClaim

/-! ## The later theorems at concrete lists -/

section LaterWitnesses

theorem sentinel_step_witness :
    (⟨some 0, some 0, none⟩ : Iterator).data = none ∧
    (((⟨some 0, some 0, none⟩ : Iterator).previous_data = none →
      Iterator.Increment threeHeap ⟨some 0, some 0, none⟩
        = (.error .out_of_range, threeHeap, ⟨some 0, some 0, none⟩) ∧
      Iterator.Decrement threeHeap ⟨some 0, some 0, none⟩
        = (.error .out_of_range, threeHeap, ⟨some 0, some 0, none⟩)) ∧
    (∀ y n, (⟨some 0, some 0, none⟩ : Iterator).previous_data = some y →
      threeHeap.read y = some n →
      (∀ z, n.next = some z → Iterator.Increment threeHeap ⟨some 0, some 0, none⟩
        = (.ok (), threeHeap, ⟨(⟨some 0, some 0, none⟩ : Iterator).first, some z, some y⟩)) ∧
      (n.next = none → Iterator.Increment threeHeap ⟨some 0, some 0, none⟩
        = (.error .out_of_range, threeHeap, ⟨some 0, some 0, none⟩)) ∧
      (∀ z, n.previous = some z → Iterator.Decrement threeHeap ⟨some 0, some 0, none⟩
        = (.ok (), threeHeap, ⟨(⟨some 0, some 0, none⟩ : Iterator).first, some z, some y⟩)) ∧
      (n.previous = none → Iterator.Decrement threeHeap ⟨some 0, some 0, none⟩
        = (.error .out_of_range, threeHeap, ⟨some 0, some 0, none⟩)))) :=
  ⟨rfl, sentinel_step threeHeap ⟨some 0, some 0, none⟩ rfl⟩

theorem assign_through_witness :
    IsList threeHeap threeList [0, 1, 2] [10, 20, 30] ∧
    ∃ h1, (threeList.Begin POSITION.START).assign threeHeap 99
        = (.ok (), h1, threeList.Begin POSITION.START) ∧
      IsList h1 threeList [0, 1, 2] [99, 20, 30] ∧
      (CList.Peek h1 threeList POSITION.START).1 = .ok 99 :=
  ⟨by decide,
    match ((assign_through threeHeap threeList [0, 1, 2] [10, 20, 30] (by decide)
      (threeList.Begin POSITION.START) 99).2 0 0 rfl rfl) with
    | ⟨h1, hrun, hlist, _, _, hpeek, _⟩ => ⟨h1, hrun, hlist, hpeek⟩⟩

theorem failed_step_keeps_state_witness :
    (Step.forward.run oneHeap ⟨some 0, some 0, none⟩).1 = .error .out_of_range ∧
    (Step.forward.run oneHeap ⟨some 0, some 0, none⟩
        = (.error .out_of_range, oneHeap, ⟨some 0, some 0, none⟩) ∧
      (Step.forward.run oneHeap ⟨some 0, some 0, none⟩).2.2.first
        = (⟨some 0, some 0, none⟩ : Iterator).first ∧
      (Step.forward.run oneHeap ⟨some 0, some 0, none⟩).2.2.previous_data
        = (⟨some 0, some 0, none⟩ : Iterator).previous_data ∧
      (Step.forward.run oneHeap ⟨some 0, some 0, none⟩).2.2.data
        = (⟨some 0, some 0, none⟩ : Iterator).data) :=
  ⟨rfl, failed_step_keeps_state oneHeap ⟨some 0, some 0, none⟩ Step.forward rfl⟩

theorem equality_on_data_witness :
    IsList threeHeap threeList [0, 1, 2] [10, 20, 30] ∧
    ((threeList.Begin POSITION.END).eq threeList.End = true
      ↔ (threeList.Begin POSITION.END).data = threeList.End.data) ∧
    ((threeList.Begin POSITION.END).Increment threeHeap).2.2.eq threeList.End = true :=
  ⟨by decide,
    (equality_on_data threeHeap threeList [0, 1, 2] [10, 20, 30] (by decide)
      (threeList.Begin POSITION.END) threeList.End).1,
    ((equality_on_data threeHeap threeList [0, 1, 2] [10, 20, 30] (by decide)
      (threeList.Begin POSITION.END) threeList.End).2.2.2.1 (by decide) rfl).2.1⟩

theorem lifo_ends_witness :
    IsList threeHeap threeList [0, 1, 2] [10, 20, 30] ∧
    ((∃ h1 l1 h2 l2, CList.Append threeHeap threeList 40 = (.ok (), h1, l1) ∧
      CList.Pop h1 l1 POSITION.END = (.ok 40, h2, l2) ∧
      IsList h2 l2 [0, 1, 2] [10, 20, 30]) ∧
    (∃ h1 l1 h2 l2, CList.Prepend threeHeap threeList 40 = (.ok (), h1, l1) ∧
      CList.Pop h1 l1 POSITION.START = (.ok 40, h2, l2) ∧
      IsList h2 l2 [0, 1, 2] [10, 20, 30])) :=
  ⟨by decide, lifo_ends threeHeap threeList [0, 1, 2] [10, 20, 30] 40 (by decide)⟩

theorem cursor_refinement_witness :
    IsList threeHeap threeList [0, 1, 2] [10, 20, 30] ∧
    2 ≤ ([10, 20, 30] : List Nat).length ∧
    Simulates [0, 1, 2] (threeList.Begin POSITION.START) 0 ∧
    Simulates [0, 1, 2] (threeList.Begin POSITION.END) 2 ∧
    (∀ steps : List Step,
      (runSteps threeHeap (threeList.Begin POSITION.START) steps).1
        = (Cursor.runSteps 3 0 steps).1 ∧
      (runSteps threeHeap (threeList.Begin POSITION.START) steps).2.1 = threeHeap ∧
      Simulates [0, 1, 2] (runSteps threeHeap (threeList.Begin POSITION.START) steps).2.2
        (Cursor.runSteps 3 0 steps).2) :=
  ⟨by decide, by decide,
    (cursor_refinement threeHeap threeList [0, 1, 2] [10, 20, 30] (by decide)
      (by decide)).1,
    (cursor_refinement threeHeap threeList [0, 1, 2] [10, 20, 30] (by decide)
      (by decide)).2.1,
    (cursor_refinement threeHeap threeList [0, 1, 2] [10, 20, 30] (by decide)
      (by decide)).2.2.2.1⟩

theorem advance_failure_state_witness :
    ((threeList.Begin POSITION.START).plus threeHeap 5).1 = .error .out_of_range ∧
    ∃ k, k < 5 ∧
      Iterator.times Iterator.Increment k threeHeap (threeList.Begin POSITION.START)
        = (.ok (), threeHeap, ((threeList.Begin POSITION.START).plus threeHeap 5).2.2) ∧
      ((threeList.Begin POSITION.START).plus threeHeap 5).2.1 = threeHeap ∧
      ((threeList.Begin POSITION.START).plus threeHeap 5).2.2.Increment threeHeap
        = (.error .out_of_range, threeHeap,
            ((threeList.Begin POSITION.START).plus threeHeap 5).2.2) :=
  ⟨rfl, (advance_failure_state threeHeap (threeList.Begin POSITION.START) 5).1 rfl⟩

end LaterWitnesses
